import Mathlib

/-!
Verification development for the chess rules engine (`ChessGame`) and the
tree-search opponent (`ChessBot`).

The TypeScript source is embedded shallowly:

* pure reads (`getLegalMoves`, `isKingInCheck`, ...) become pure functions of
  the board;
* the stateful `makeMove` becomes a function `GameState → Position → Position →
  Bool × GameState` (JavaScript field mutation becomes explicit record update);
* JavaScript array aliasing, where it is observable, is modelled explicitly:
  `getGameState` returns `{ ...this.gameState }`, a shallow copy, so the
  snapshot's `board` / `moveHistory` / `legalMoves` fields reference the very
  same arrays as the engine record.  A small heap model (references are indices
  into a store) captures this for the snapshot claims, and the bot's search is
  embedded with the one shared mutable cell it can actually reach — the
  engine's `moveHistory` array — threaded explicitly.

Board coordinates follow the source: row 0 is black's back rank, row 7 is
white's back rank; positions carry `Int` coordinates because the generators
form out-of-range candidates before validating them with `isValidPosition`.
-/

/-- `PieceType` from `types.ts`. -/
inductive PieceType where
  | king | queen | rook | bishop | knight | pawn
deriving DecidableEq, Repr

/-- `PieceColor` from `types.ts`. -/
inductive PieceColor where
  | white | black
deriving DecidableEq, Repr

/-- `Difficulty` from `types.ts`. -/
inductive Difficulty where
  | veryEasy | easy | medium | hard | veryHard
deriving DecidableEq, Repr

/-- `Piece` from `types.ts`.  The optional `hasMoved` flag is always written
before it is read in the source, so it is modelled as a plain `Bool`. -/
structure Piece where
  type : PieceType
  color : PieceColor
  hasMoved : Bool
deriving DecidableEq, Repr

/-- `Position` from `types.ts`.  Coordinates are `Int` because move generators
build candidate positions with negative components before clipping them with
`isValidPosition`. -/
structure Position where
  row : Int
  col : Int
deriving DecidableEq, Repr

/-- `Move` from `types.ts`.  `from` is a Lean keyword, hence `fromPos`/`toPos`.
`castling` and `enPassant` are declared in the source but never set by the
engine. -/
structure Move where
  fromPos : Position
  toPos : Position
  piece : Piece
  capturedPiece : Option Piece
  castling : Option Bool
  enPassant : Option Bool
  promotion : Option PieceType
deriving DecidableEq, Repr

/-- The 8x8 grid of optional pieces, `(Piece | null)[][]` in the source. -/
abbrev Board := List (List (Option Piece))

/-- `GameState` from `types.ts`. -/
structure GameState where
  board : Board
  currentPlayer : PieceColor
  isCheck : Bool
  isCheckmate : Bool
  isStalemate : Bool
  gameOver : Bool
  selectedSquare : Option Position
  legalMoves : List Position
  moveHistory : List Move
  difficulty : Difficulty
deriving DecidableEq, Repr

/-- `isValidPosition` from `utils.ts`. -/
def isValidPosition (pos : Position) : Bool :=
  decide (0 ≤ pos.row) && decide (pos.row < 8) && decide (0 ≤ pos.col) && decide (pos.col < 8)

/-- `isSamePosition` from `utils.ts`. -/
def isSamePosition (pos1 pos2 : Position) : Bool :=
  decide (pos1.row = pos2.row) && decide (pos1.col = pos2.col)

/-- `getOppositeColor` from `utils.ts`. -/
def getOppositeColor (color : PieceColor) : PieceColor :=
  match color with
  | .white => .black
  | .black => .white

/-- `copyBoard` from `utils.ts`: `board.map(row => row.map(piece => piece ? { ...piece } : null))`. -/
def copyBoard (board : Board) : Board :=
  board.map (fun row => row.map (fun piece =>
    match piece with
    | some p => some { type := p.type, color := p.color, hasMoved := p.hasMoved }
    | none => none))

/-- Reading `board[pos.row][pos.col]`.  The source only performs this access at
positions that exist in the 8x8 grid; out-of-range reads answer `none` here. -/
def boardGet (b : Board) (pos : Position) : Option Piece :=
  if 0 ≤ pos.row ∧ 0 ≤ pos.col then
    (((b.get? pos.row.toNat).getD []).get? pos.col.toNat).join
  else none

/-- Writing `board[pos.row][pos.col] = v`.  The source only performs this at
positions inside the grid; out-of-range writes are a no-op here. -/
def boardSet (b : Board) (pos : Position) (v : Option Piece) : Board :=
  if 0 ≤ pos.row ∧ 0 ≤ pos.col then
    b.set pos.row.toNat ((b.getD pos.row.toNat []).set pos.col.toNat v)
  else b

/-- All squares in the row-major, then column-major order used by every scan
loop (`for row ... for col ...`) in `ChessGame.ts`. -/
def allSquares : List Position :=
  (List.range 8).flatMap (fun r => (List.range 8).map (fun c => ⟨(r : Int), (c : Int)⟩))

/-- `ChessGame.getPawnMoves`. -/
def getPawnMoves (b : Board) (pos : Position) : List Position :=
  match boardGet b pos with
  | none => []
  | some piece =>
    let direction : Int := if piece.color = .white then -1 else 1
    let startRow : Int := if piece.color = .white then 6 else 1
    let oneForward : Position := ⟨pos.row + direction, pos.col⟩
    let forward : List Position :=
      if isValidPosition oneForward ∧ boardGet b oneForward = none then
        oneForward ::
          (if pos.row = startRow then
            let twoForward : Position := ⟨pos.row + 2 * direction, pos.col⟩
            if isValidPosition twoForward ∧ boardGet b twoForward = none then [twoForward] else []
          else [])
      else []
    let captures : List Position :=
      ([-1, 1] : List Int).filterMap (fun colOffset =>
        let capturePos : Position := ⟨pos.row + direction, pos.col + colOffset⟩
        if isValidPosition capturePos then
          match boardGet b capturePos with
          | some targetPiece => if targetPiece.color ≠ piece.color then some capturePos else none
          | none => none
        else none)
    forward ++ captures

/-- One sliding direction of `getRookMoves` / `getBishopMoves`: the source's
inner `for (let i = 1; i < 8; i++)` loop with its two `break`s.  `fuel` is the
number of loop iterations left, `i` the current multiplier. -/
def slideDir (b : Board) (selfColor : PieceColor) (pos : Position) (rowDir colDir : Int) :
    Nat → Int → List Position
  | 0, _ => []
  | fuel + 1, i =>
    let newPos : Position := ⟨pos.row + i * rowDir, pos.col + i * colDir⟩
    if isValidPosition newPos then
      match boardGet b newPos with
      | none => newPos :: slideDir b selfColor pos rowDir colDir fuel (i + 1)
      | some targetPiece => if targetPiece.color ≠ selfColor then [newPos] else []
    else []

/-- `ChessGame.getRookMoves`.  The source reads the moving piece's color from
the board inside the loop (`board[position.row][position.col]!.color`); the
non-null assertion is total here by answering `[]` when the square is empty,
a case no caller reaches. -/
def getRookMoves (b : Board) (pos : Position) : List Position :=
  match boardGet b pos with
  | none => []
  | some piece =>
    ([((0 : Int), (1 : Int)), (0, -1), (1, 0), (-1, 0)]).flatMap
      (fun d => slideDir b piece.color pos d.1 d.2 7 1)

/-- `ChessGame.getBishopMoves`. -/
def getBishopMoves (b : Board) (pos : Position) : List Position :=
  match boardGet b pos with
  | none => []
  | some piece =>
    ([((1 : Int), (1 : Int)), (1, -1), (-1, 1), (-1, -1)]).flatMap
      (fun d => slideDir b piece.color pos d.1 d.2 7 1)

/-- `ChessGame.getKnightMoves`. -/
def getKnightMoves (b : Board) (pos : Position) : List Position :=
  match boardGet b pos with
  | none => []
  | some piece =>
    ([((-2 : Int), (-1 : Int)), (-2, 1), (-1, -2), (-1, 2), (1, -2), (1, 2), (2, -1), (2, 1)]).filterMap
      (fun off =>
        let newPos : Position := ⟨pos.row + off.1, pos.col + off.2⟩
        if isValidPosition newPos then
          match boardGet b newPos with
          | none => some newPos
          | some targetPiece => if targetPiece.color ≠ piece.color then some newPos else none
        else none)

/-- `ChessGame.getQueenMoves`: rook moves followed by bishop moves. -/
def getQueenMoves (b : Board) (pos : Position) : List Position :=
  getRookMoves b pos ++ getBishopMoves b pos

/-- `ChessGame.getKingMoves`. -/
def getKingMoves (b : Board) (pos : Position) : List Position :=
  match boardGet b pos with
  | none => []
  | some piece =>
    ([((0 : Int), (1 : Int)), (0, -1), (1, 0), (-1, 0), (1, 1), (1, -1), (-1, 1), (-1, -1)]).filterMap
      (fun off =>
        let newPos : Position := ⟨pos.row + off.1, pos.col + off.2⟩
        if isValidPosition newPos then
          match boardGet b newPos with
          | none => some newPos
          | some targetPiece => if targetPiece.color ≠ piece.color then some newPos else none
        else none)

/-- `ChessGame.getLegalMovesIgnoringCheck`: dispatch on the piece kind, no
self-check filtering. -/
def getLegalMovesIgnoringCheck (b : Board) (pos : Position) : List Position :=
  match boardGet b pos with
  | none => []
  | some piece =>
    match piece.type with
    | .pawn => getPawnMoves b pos
    | .rook => getRookMoves b pos
    | .knight => getKnightMoves b pos
    | .bishop => getBishopMoves b pos
    | .queen => getQueenMoves b pos
    | .king => getKingMoves b pos

/-- The king-locating scan of `ChessGame.isKingInCheck`: the nested loops with
`break` find the first matching square in row-major order. -/
def findKing (color : PieceColor) (b : Board) : Option Position :=
  allSquares.find? (fun pos =>
    match boardGet b pos with
    | some piece => decide (piece.type = .king) && decide (piece.color = color)
    | none => false)

/-- `ChessGame.isKingInCheck color board`: locate the king (absence means "not
in check"), then test whether any enemy piece's pseudo-legal moves hit it.
The source's auxiliary `tempGame` only calls `getLegalMovesIgnoringCheck`,
a pure read of the board handed to it. -/
def isKingInCheck (color : PieceColor) (b : Board) : Bool :=
  match findKing color b with
  | none => false
  | some kingPos =>
    allSquares.any (fun pos =>
      match boardGet b pos with
      | some piece =>
        decide (piece.color ≠ color) &&
          (getLegalMovesIgnoringCheck b pos).any (fun m => isSamePosition m kingPos)
      | none => false)

/-- `ChessGame.wouldBeInCheck`: play the move on a copy of the board (no
`hasMoved` update, no promotion) and test for check. -/
def wouldBeInCheck (b : Board) (fromPos toPos : Position) (color : PieceColor) : Bool :=
  let tempBoard := copyBoard b
  let tempBoard2 := boardSet tempBoard toPos (boardGet tempBoard fromPos)
  let tempBoard3 := boardSet tempBoard2 fromPos none
  isKingInCheck color tempBoard3

/-- `ChessGame.getLegalMoves`: pseudo-legal generation filtered by the
self-check gate. -/
def getLegalMoves (b : Board) (pos : Position) : List Position :=
  match boardGet b pos with
  | none => []
  | some piece =>
    let moves : List Position :=
      match piece.type with
      | .pawn => getPawnMoves b pos
      | .rook => getRookMoves b pos
      | .knight => getKnightMoves b pos
      | .bishop => getBishopMoves b pos
      | .queen => getQueenMoves b pos
      | .king => getKingMoves b pos
    moves.filter (fun m => !wouldBeInCheck b pos m piece.color)

/-- `ChessGame.getAllLegalMoves`: row-major scan over the mover's pieces,
materialising full `Move` records. -/
def getAllLegalMoves (b : Board) (color : PieceColor) : List Move :=
  allSquares.flatMap (fun pos =>
    match boardGet b pos with
    | some piece =>
      if piece.color = color then
        (getLegalMoves b pos).map (fun m =>
          { fromPos := pos, toPos := m,
            piece := { type := piece.type, color := piece.color, hasMoved := piece.hasMoved },
            capturedPiece :=
              match boardGet b m with
              | some cap => some { type := cap.type, color := cap.color, hasMoved := cap.hasMoved }
              | none => none,
            castling := none, enPassant := none, promotion := none })
      else []
    | none => [])

/-- `ChessGame.updateGameStatus`: recompute `isCheck` for the player to move
and set the terminal flags when that player has no legal move. -/
def updateGameStatus (gs : GameState) : GameState :=
  let isCheck := isKingInCheck gs.currentPlayer gs.board
  let hasLegalMoves := allSquares.any (fun pos =>
    match boardGet gs.board pos with
    | some piece =>
      decide (piece.color = gs.currentPlayer) && decide ((getLegalMoves gs.board pos).length > 0)
    | none => false)
  if !hasLegalMoves then
    if isCheck then
      { gs with isCheck := isCheck, isCheckmate := true, gameOver := true }
    else
      { gs with isCheck := isCheck, isStalemate := true, gameOver := true }
  else
    { gs with isCheck := isCheck }

/-- The promotion test inside `ChessGame.makeMove`. -/
def promoCond (piece : Piece) (toPos : Position) : Prop :=
  piece.type = .pawn ∧
    ((piece.color = .white ∧ toPos.row = 0) ∨ (piece.color = .black ∧ toPos.row = 7))

instance (piece : Piece) (toPos : Position) : Decidable (promoCond piece toPos) := by
  unfold promoCond; infer_instance

/-- `ChessGame.makeMove`: returns `false` and leaves the state alone when the
source square is empty; otherwise relocates unconditionally, auto-promotes a
pawn on the farthest rank, appends to history, flips the player, clears the
selection and recomputes the status flags. -/
def makeMove (gs : GameState) (fromPos toPos : Position) : Bool × GameState :=
  match boardGet gs.board fromPos with
  | none => (false, gs)
  | some piece =>
    let capturedPiece := boardGet gs.board toPos
    let move : Move :=
      { fromPos := fromPos, toPos := toPos,
        piece := { type := piece.type, color := piece.color, hasMoved := piece.hasMoved },
        capturedPiece :=
          match capturedPiece with
          | some cap => some { type := cap.type, color := cap.color, hasMoved := cap.hasMoved }
          | none => none,
        castling := none, enPassant := none, promotion := none }
    let board1 := boardSet (boardSet gs.board toPos (some { piece with hasMoved := true }))
      fromPos none
    let board2 :=
      if promoCond piece toPos then
        boardSet board1 toPos (some { piece with type := .queen, hasMoved := true })
      else board1
    let move2 := if promoCond piece toPos then { move with promotion := some .queen } else move
    let gs1 : GameState :=
      { gs with
        board := board2,
        moveHistory := gs.moveHistory ++ [move2],
        currentPlayer := getOppositeColor gs.currentPlayer,
        selectedSquare := none,
        legalMoves := [] }
    (true, updateGameStatus gs1)

/-- `ChessGame.createInitialBoard`: the standard opening position, black on
rows 0-1, white on rows 6-7. -/
def createInitialBoard : Board :=
  let backRank : PieceColor → List (Option Piece) := fun c =>
    [some ⟨.rook, c, false⟩, some ⟨.knight, c, false⟩, some ⟨.bishop, c, false⟩,
     some ⟨.queen, c, false⟩, some ⟨.king, c, false⟩, some ⟨.bishop, c, false⟩,
     some ⟨.knight, c, false⟩, some ⟨.rook, c, false⟩]
  let pawnRank : PieceColor → List (Option Piece) := fun c =>
    List.replicate 8 (some ⟨.pawn, c, false⟩)
  let emptyRank : List (Option Piece) := List.replicate 8 none
  [backRank .black, pawnRank .black, emptyRank, emptyRank, emptyRank, emptyRank,
   pawnRank .white, backRank .white]

/-- `ChessGame.initializeGame`: the state constructed at game start. -/
def initializeGame : GameState :=
  { board := createInitialBoard
    currentPlayer := .white
    isCheck := false
    isCheckmate := false
    isStalemate := false
    gameOver := false
    selectedSquare := none
    legalMoves := []
    moveHistory := []
    difficulty := .medium }

/-!
The search engine, `ChessBot.ts`.

JavaScript numbers in the bot stay exact: every static-evaluation term is a
multiple of 0.5 (the piece-square tables are divided by 10), so scores are
modelled as rationals, extended with the two infinities the search uses as
sentinels (`-Infinity` / `Infinity`).

Aliasing audit for the search: `this.game.getGameState()` is a shallow copy,
so `currentState.moveHistory` and `currentState.board` are the engine's own
arrays.  `minimax` replaces the temp game's `board` with `copyBoard(...)` — a
fresh array — but keeps the shared `moveHistory` reference, and `makeMove` on
the temp game `push`es onto it.  That push is therefore visible through the
engine's record.  Every other write in the search lands on the temp game's own
record or its fresh board copy.  The embedding hence threads one extra value —
the contents of the engine's `moveHistory` array — through the search, and
leaves the rest of the engine state as the fixed parameter `g`.
-/

/-- A JavaScript number as used by the bot: an exact rational or one of the
two infinite sentinels. -/
inductive Score where
  | negInf
  | val (q : ℚ)
  | posInf
deriving DecidableEq, Repr

/-- JavaScript `<=` on the scores that occur in the search. -/
def Score.le : Score → Score → Bool
  | .negInf, _ => true
  | .val _, .negInf => false
  | .val a, .val b => decide (a ≤ b)
  | .val _, .posInf => true
  | .posInf, .posInf => true
  | .posInf, _ => false

/-- JavaScript `<` on the scores that occur in the search. -/
def Score.lt : Score → Score → Bool
  | .negInf, .negInf => false
  | .negInf, _ => true
  | .val _, .negInf => false
  | .val a, .val b => decide (a < b)
  | .val _, .posInf => true
  | .posInf, _ => false

/-- `Math.max` on scores. -/
def Score.max (a b : Score) : Score := if Score.lt a b then b else a

/-- `Math.min` on scores. -/
def Score.min (a b : Score) : Score := if Score.lt b a then b else a

/-- `ChessBot.getPieceValue`. -/
def getPieceValue (piece : Piece) : ℚ :=
  match piece.type with
  | .pawn => 100
  | .knight => 320
  | .bishop => 330
  | .rook => 500
  | .queen => 900
  | .king => 20000

/-- The pawn piece-square table of `ChessBot.getPositionValue`. -/
def pawnTable : List (List ℚ) :=
  [[0, 0, 0, 0, 0, 0, 0, 0],
   [50, 50, 50, 50, 50, 50, 50, 50],
   [10, 10, 20, 30, 30, 20, 10, 10],
   [5, 5, 10, 25, 25, 10, 5, 5],
   [0, 0, 0, 20, 20, 0, 0, 0],
   [5, -5, -10, 0, 0, -10, -5, 5],
   [5, 10, 10, -20, -20, 10, 10, 5],
   [0, 0, 0, 0, 0, 0, 0, 0]]

/-- The knight piece-square table of `ChessBot.getPositionValue`. -/
def knightTable : List (List ℚ) :=
  [[-50, -40, -30, -30, -30, -30, -40, -50],
   [-40, -20, 0, 0, 0, 0, -20, -40],
   [-30, 0, 10, 15, 15, 10, 0, -30],
   [-30, 5, 15, 20, 20, 15, 5, -30],
   [-30, 0, 15, 20, 20, 15, 0, -30],
   [-30, 5, 10, 15, 15, 10, 5, -30],
   [-40, -20, 0, 5, 5, 0, -20, -40],
   [-50, -40, -30, -30, -30, -30, -40, -50]]

/-- Table lookup `table[row][col]`; the bot only looks up positions of moves
produced by the rules engine, which are on the board. -/
def tableLookup (table : List (List ℚ)) (pos : Position) : ℚ :=
  if 0 ≤ pos.row ∧ 0 ≤ pos.col then
    ((table.get? pos.row.toNat).getD []).getD pos.col.toNat 0
  else 0

/-- `ChessBot.getPositionValue`: pawn and knight tables divided by 10, other
kinds contribute 0. -/
def getPositionValue (piece : Piece) (pos : Position) : ℚ :=
  match piece.type with
  | .pawn => tableLookup pawnTable pos / 10
  | .knight => tableLookup knightTable pos / 10
  | _ => 0

/-- `ChessBot.isCenter`. -/
def isCenter (pos : Position) : Bool :=
  decide (2 ≤ pos.row) && decide (pos.row ≤ 5) && decide (2 ≤ pos.col) && decide (pos.col ≤ 5)

/-- `ChessBot.evaluateMove`.  The method re-reads
`this.game.getGameState().moveHistory` on every call; `hist` is the current
contents of that shared array. -/
def evaluateMove (hist : List Move) (move : Move) : ℚ :=
  let s1 : ℚ :=
    match move.capturedPiece with
    | some cap => getPieceValue cap
    | none => 0
  let s2 := s1 + getPositionValue move.piece move.toPos
  let s3 :=
    if hist.length < 10 then
      let pieceMovedBefore := (hist.filter (fun m =>
        decide (m.piece.type = move.piece.type) && decide (m.piece.color = move.piece.color))).length
      s2 - pieceMovedBefore * 10
    else s2
  let s4 := if isCenter move.toPos then s3 + 20 else s3
  let s5 := if move.piece.type = .king ∧ hist.length < 15 then s4 - 50 else s4
  s5

/-- The maximizing loop of `ChessBot.minimax` (lines 140-148): update
`maxEval` and `alpha`, `break` once `beta <= alpha`.  `rec` is the recursive
call at the next-lower depth; the engine's shared `moveHistory` contents are
threaded as the last argument and through every result. -/
def maxLoop (rec : Move → Score → Score → List Move → Score × List Move) :
    List Move → Score → Score → Score → List Move → Score × List Move
  | [], _, _, maxEval, hist => (maxEval, hist)
  | m :: rest, alpha, beta, maxEval, hist =>
    let r := rec m alpha beta hist
    let maxEval2 := Score.max maxEval r.1
    let alpha2 := Score.max alpha r.1
    if Score.le beta alpha2 then (maxEval2, r.2)
    else maxLoop rec rest alpha2 beta maxEval2 r.2

/-- The minimizing loop of `ChessBot.minimax` (lines 149-158). -/
def minLoop (rec : Move → Score → Score → List Move → Score × List Move) :
    List Move → Score → Score → Score → List Move → Score × List Move
  | [], _, _, minEval, hist => (minEval, hist)
  | m :: rest, alpha, beta, minEval, hist =>
    let r := rec m alpha beta hist
    let minEval2 := Score.min minEval r.1
    let beta2 := Score.min beta r.1
    if Score.le beta2 alpha then (minEval2, r.2)
    else minLoop rec rest alpha beta2 minEval2 r.2

/-- `ChessBot.minimax`.  `g` is the authoritative engine state (never written
by the search except through the shared `moveHistory` array, whose contents
enter as `hist` and leave as the second component).  Each recursion level
rebuilds its temp game from `this.game.getGameState()` — the engine state with
the current shared history — replacing only the board by a fresh copy. -/
def minimax (g : GameState) : Nat → Move → Bool → Score → Score → List Move → Score × List Move
  | 0, move, _, _, _, hist => (.val (evaluateMove hist move), hist)
  | depth + 1, move, isMaximizing, alpha, beta, hist =>
    let tempState : GameState := { g with moveHistory := hist, board := copyBoard g.board }
    let r := makeMove tempState move.fromPos move.toPos
    let newState := r.2
    let hist1 := newState.moveHistory
    if newState.isCheckmate then
      (if isMaximizing then .val (-10000) else .val 10000, hist1)
    else
      let nextColor : PieceColor := if isMaximizing then .white else .black
      let nextMoves := getAllLegalMoves newState.board nextColor
      if isMaximizing then
        maxLoop (fun m a b h => minimax g depth m false a b h) nextMoves alpha beta .negInf hist1
      else
        minLoop (fun m a b h => minimax g depth m true a b h) nextMoves alpha beta .posInf hist1

/-- The root loop of `ChessBot.getHardMove`: strict `>` comparison, first
best-scoring move in generation order wins. -/
def hardLoop (g : GameState) (depth : Nat) :
    List Move → Option Move → Score → List Move → Option Move × List Move
  | [], best, _, hist => (best, hist)
  | m :: rest, best, bestScore, hist =>
    let r := minimax g (depth - 1) m false .negInf .posInf hist
    if Score.lt bestScore r.1 then hardLoop g depth rest (some m) r.1 r.2
    else hardLoop g depth rest best bestScore r.2

/-- `ChessBot.getHardMove`: `bestMove` starts at `moves[0]`, then the root
loop scans all moves. -/
def getHardMove (g : GameState) (moves : List Move) (depth : Nat) (hist : List Move) :
    Option Move × List Move :=
  hardLoop g depth moves moves.head? .negInf hist

/-- `ChessBot.getBestMove` at difficulty `hard`: collect black's legal moves,
answer `none` when there are none, otherwise search to depth 3.  The engine's
shared `moveHistory` array starts at `g.moveHistory`; its final contents are
the second component. -/
def getBestMoveHard (g : GameState) : Option Move × List Move :=
  let legalMoves := getAllLegalMoves g.board .black
  if legalMoves.isEmpty then (none, g.moveHistory)
  else getHardMove g legalMoves 3 g.moveHistory

/-- Modelled from the spec: plain minimax, "no pruning", as the spec's
testable property compares against — `ChessBot.minimax` with the two
`if (beta <= alpha) break;` lines removed and nothing else changed.  This is
the maximizing loop without the break. -/
def maxLoopPlain (rec : Move → Score → Score → List Move → Score × List Move) :
    List Move → Score → Score → Score → List Move → Score × List Move
  | [], _, _, maxEval, hist => (maxEval, hist)
  | m :: rest, alpha, beta, maxEval, hist =>
    let r := rec m alpha beta hist
    let maxEval2 := Score.max maxEval r.1
    let alpha2 := Score.max alpha r.1
    maxLoopPlain rec rest alpha2 beta maxEval2 r.2

/-- Modelled from the spec: the minimizing loop without the break. -/
def minLoopPlain (rec : Move → Score → Score → List Move → Score × List Move) :
    List Move → Score → Score → Score → List Move → Score × List Move
  | [], _, _, minEval, hist => (minEval, hist)
  | m :: rest, alpha, beta, minEval, hist =>
    let r := rec m alpha beta hist
    let minEval2 := Score.min minEval r.1
    let beta2 := Score.min beta r.1
    minLoopPlain rec rest alpha beta2 minEval2 r.2

/-- Modelled from the spec: `minimax` with no pruning. -/
def minimaxPlain (g : GameState) : Nat → Move → Bool → Score → Score → List Move → Score × List Move
  | 0, move, _, _, _, hist => (.val (evaluateMove hist move), hist)
  | depth + 1, move, isMaximizing, alpha, beta, hist =>
    let tempState : GameState := { g with moveHistory := hist, board := copyBoard g.board }
    let r := makeMove tempState move.fromPos move.toPos
    let newState := r.2
    let hist1 := newState.moveHistory
    if newState.isCheckmate then
      (if isMaximizing then .val (-10000) else .val 10000, hist1)
    else
      let nextColor : PieceColor := if isMaximizing then .white else .black
      let nextMoves := getAllLegalMoves newState.board nextColor
      if isMaximizing then
        maxLoopPlain (fun m a b h => minimaxPlain g depth m false a b h) nextMoves alpha beta .negInf hist1
      else
        minLoopPlain (fun m a b h => minimaxPlain g depth m true a b h) nextMoves alpha beta .posInf hist1

/-- Modelled from the spec: the root loop over plain minimax. -/
def hardLoopPlain (g : GameState) (depth : Nat) :
    List Move → Option Move → Score → List Move → Option Move × List Move
  | [], best, _, hist => (best, hist)
  | m :: rest, best, bestScore, hist =>
    let r := minimaxPlain g (depth - 1) m false .negInf .posInf hist
    if Score.lt bestScore r.1 then hardLoopPlain g depth rest (some m) r.1 r.2
    else hardLoopPlain g depth rest best bestScore r.2

/-- Modelled from the spec: `getHardMove` over plain minimax. -/
def getHardMovePlain (g : GameState) (moves : List Move) (depth : Nat) (hist : List Move) :
    Option Move × List Move :=
  hardLoopPlain g depth moves moves.head? .negInf hist

/-!
Reference semantics for the state snapshot.

`ChessGame.getGameState` is `return { ...this.gameState }`: a fresh top-level
record whose array-valued fields (`board`, `legalMoves`, `moveHistory`) still
reference the engine's arrays.  To make that observable, the record is modelled
with explicit references — indices into a store of arrays — and the spread
operator becomes the field-by-field copy it is, which copies the references.
-/

/-- The engine's `gameState` record under reference semantics: array-valued
fields hold references (store indices), everything else is a value.
`selectedSquare` holds a `Position` object reference in JavaScript, but no code
ever mutates a `Position` in place, so it is kept as a value. -/
structure GameStateRef where
  boardRef : Nat
  legalMovesRef : Nat
  moveHistoryRef : Nat
  currentPlayer : PieceColor
  isCheck : Bool
  isCheckmate : Bool
  isStalemate : Bool
  gameOver : Bool
  selectedSquare : Option Position
  difficulty : Difficulty
deriving DecidableEq, Repr

/-- The store backing the array references. -/
structure Heap where
  boards : List Board
  posLists : List (List Position)
  moveLists : List (List Move)
deriving DecidableEq, Repr

/-- Dereference a board reference. -/
def Heap.boardAt (h : Heap) (r : Nat) : Board := (h.boards.get? r).getD []

/-- Mutate the board array at reference `r` (in-place array mutation, e.g.
`snapshot.board[0][0] = null` performed through whatever record holds `r`). -/
def Heap.writeBoard (h : Heap) (r : Nat) (b : Board) : Heap :=
  { h with boards := h.boards.set r b }

/-- `ChessGame.getGameState` under reference semantics: `{ ...this.gameState }`
copies every field of the record — including the array references — into a
fresh record.  The result is a new top-level object with the same field
values. -/
def getGameState (g : GameStateRef) : GameStateRef :=
  { boardRef := g.boardRef
    legalMovesRef := g.legalMovesRef
    moveHistoryRef := g.moveHistoryRef
    currentPlayer := g.currentPlayer
    isCheck := g.isCheck
    isCheckmate := g.isCheckmate
    isStalemate := g.isStalemate
    gameOver := g.gameOver
    selectedSquare := g.selectedSquare
    difficulty := g.difficulty }

/-- The engine state a `GameStateRef` denotes once its references are read
from the heap.  The engine's subsequent behaviour (`makeMove`, `selectSquare`,
...) is a function of this denotation. -/
def denoteState (h : Heap) (g : GameStateRef) : GameState :=
  { board := h.boardAt g.boardRef
    currentPlayer := g.currentPlayer
    isCheck := g.isCheck
    isCheckmate := g.isCheckmate
    isStalemate := g.isStalemate
    gameOver := g.gameOver
    selectedSquare := g.selectedSquare
    legalMoves := (h.posLists.get? g.legalMovesRef).getD []
    moveHistory := (h.moveLists.get? g.moveHistoryRef).getD []
    difficulty := g.difficulty }

/-!
State-threaded query wrappers.

`getLegalMoves` and `getAllLegalMoves` never assign to `this.gameState`, but
`isKingInCheck` hands the board it is given — which can be the engine's own
array — to an auxiliary `ChessGame` instance (`tempGame.gameState.board =
boardToCheck`).  Writes performed by that instance would be writes to the
engine's board.  The threaded versions below return the array contents as they
are left by the auxiliary instance, so the purity claim is the statement that
the threaded result equals the input.
-/

/-- The attack scan of `isKingInCheck`, threading the (possibly engine-owned)
board array through each auxiliary `tempGame`.  `getLegalMovesIgnoringCheck`
only reads, so each step hands the array on unchanged. -/
def checkScanSt (color : PieceColor) (kingPos : Position) :
    List Position → Board → Bool × Board
  | [], b => (false, b)
  | pos :: rest, b =>
    match boardGet b pos with
    | some piece =>
      if piece.color ≠ color then
        let tempResult : List Position × Board := (getLegalMovesIgnoringCheck b pos, b)
        if tempResult.1.any (fun m => isSamePosition m kingPos) then (true, tempResult.2)
        else checkScanSt color kingPos rest tempResult.2
      else checkScanSt color kingPos rest b
    | none => checkScanSt color kingPos rest b

/-- `isKingInCheck` threading the board array it was handed. -/
def isKingInCheckSt (color : PieceColor) (b : Board) : Bool × Board :=
  match findKing color b with
  | none => (false, b)
  | some kingPos => checkScanSt color kingPos allSquares b

/-- `wouldBeInCheck` threading the engine state: the temp board is a fresh
`copyBoard`, so the auxiliary scan never holds the engine's array here. -/
def wouldBeInCheckSt (gs : GameState) (fromPos toPos : Position) (color : PieceColor) :
    Bool × GameState :=
  let tempBoard := copyBoard gs.board
  let tempBoard2 := boardSet tempBoard toPos (boardGet tempBoard fromPos)
  let tempBoard3 := boardSet tempBoard2 fromPos none
  let r := isKingInCheckSt color tempBoard3
  (r.1, gs)

/-- The self-check filter of `getLegalMoves`, threading the engine state
through each `wouldBeInCheck` call. -/
def legalFilterSt (gs : GameState) (pos : Position) (color : PieceColor) :
    List Position → GameState → List Position × GameState
  | [], g => ([], g)
  | m :: rest, g =>
    let r := wouldBeInCheckSt g pos m color
    let r2 := legalFilterSt gs pos color rest r.2
    if r.1 then r2 else (m :: r2.1, r2.2)

/-- `getLegalMoves` threading the engine state. -/
def getLegalMovesSt (gs : GameState) (pos : Position) : List Position × GameState :=
  match boardGet gs.board pos with
  | none => ([], gs)
  | some piece =>
    let moves : List Position :=
      match piece.type with
      | .pawn => getPawnMoves gs.board pos
      | .rook => getRookMoves gs.board pos
      | .knight => getKnightMoves gs.board pos
      | .bishop => getBishopMoves gs.board pos
      | .queen => getQueenMoves gs.board pos
      | .king => getKingMoves gs.board pos
    legalFilterSt gs pos piece.color moves gs

/-- The square scan of `getAllLegalMoves`, threading the engine state through
each `getLegalMoves` call. -/
def allMovesScanSt (color : PieceColor) :
    List Position → GameState → List Move × GameState
  | [], g => ([], g)
  | pos :: rest, g =>
    match boardGet g.board pos with
    | some piece =>
      if piece.color = color then
        let r := getLegalMovesSt g pos
        let here := r.1.map (fun m =>
          { fromPos := pos, toPos := m,
            piece := { type := piece.type, color := piece.color, hasMoved := piece.hasMoved },
            capturedPiece :=
              match boardGet r.2.board m with
              | some cap => some { type := cap.type, color := cap.color, hasMoved := cap.hasMoved }
              | none => none,
            castling := none, enPassant := none, promotion := none })
        let rrest := allMovesScanSt color rest r.2
        (here ++ rrest.1, rrest.2)
      else allMovesScanSt color rest g
    | none => allMovesScanSt color rest g

/-- `getAllLegalMoves` threading the engine state. -/
def getAllLegalMovesSt (gs : GameState) (color : PieceColor) : List Move × GameState :=
  allMovesScanSt color allSquares gs

/-!
Basic lemmas about the embedding.
-/

/-- The source's `copyBoard` is a deep copy: its value equals the board it
copies (reference identity is what differs, which the value model does not
track for the fresh array). -/
theorem copyBoard_eq (b : Board) : copyBoard b = b := by
  unfold copyBoard
  have h : ∀ piece : Option Piece,
      (match piece with
       | some p => some { type := p.type, color := p.color, hasMoved := p.hasMoved }
       | none => none) = piece := by
    intro piece; cases piece <;> rfl
  simp only [h, List.map_id']

theorem getOppositeColor_ne (c : PieceColor) : getOppositeColor c ≠ c := by
  cases c <;> simp [getOppositeColor]

theorem updateGameStatus_board (gs : GameState) : (updateGameStatus gs).board = gs.board := by
  simp only [updateGameStatus]
  split
  · split <;> rfl
  · rfl

theorem updateGameStatus_currentPlayer (gs : GameState) :
    (updateGameStatus gs).currentPlayer = gs.currentPlayer := by
  simp only [updateGameStatus]
  split
  · split <;> rfl
  · rfl

theorem updateGameStatus_moveHistory (gs : GameState) :
    (updateGameStatus gs).moveHistory = gs.moveHistory := by
  simp only [updateGameStatus]
  split
  · split <;> rfl
  · rfl

/-- C4: `makeMove(from, to)` returns `false` and leaves the entire game state
unchanged exactly when `from` holds no piece; whenever `from` holds a piece it
returns `true` unconditionally — the statement quantifies over every state
(including states with `gameOver = true`) and every destination, so no
legality or game-over re-check is involved. -/
theorem C4_makeMove_contract (gs : GameState) (fromPos toPos : Position) :
    (boardGet gs.board fromPos = none → makeMove gs fromPos toPos = (false, gs))
    ∧ (boardGet gs.board fromPos ≠ none → (makeMove gs fromPos toPos).1 = true)
    ∧ ((makeMove gs fromPos toPos).2 = gs ↔ boardGet gs.board fromPos = none) := by
  have hmk : ∀ p, boardGet gs.board fromPos = some p →
      (makeMove gs fromPos toPos).1 = true
      ∧ (makeMove gs fromPos toPos).2.currentPlayer = getOppositeColor gs.currentPlayer := by
    intro p hp
    constructor
    · simp [makeMove, hp]
    · simp [makeMove, hp, updateGameStatus_currentPlayer]
  cases h : boardGet gs.board fromPos with
  | none =>
    exact ⟨fun _ => by simp [makeMove, h], fun hn => absurd rfl hn,
      Iff.intro (fun _ => rfl) (fun _ => by simp [makeMove, h])⟩
  | some piece =>
    refine ⟨fun hn => ?_, fun _ => (hmk piece h).1, Iff.intro (fun heq => ?_) (fun hn => ?_)⟩
    · cases hn
    · exfalso
      apply getOppositeColor_ne gs.currentPlayer
      rw [← (hmk piece h).2, heq]
    · cases hn

/-- C4 witness: in the initial position, moving from the empty square (3,3) is
rejected with the state unchanged, and moving from the occupied square (6,4)
is accepted. -/
theorem C4_witness :
    makeMove initializeGame ⟨3, 3⟩ ⟨4, 4⟩ = (false, initializeGame)
    ∧ (makeMove initializeGame ⟨6, 4⟩ ⟨4, 4⟩).1 = true :=
  ⟨(C4_makeMove_contract initializeGame ⟨3, 3⟩ ⟨4, 4⟩).1 (by decide),
   (C4_makeMove_contract initializeGame ⟨6, 4⟩ ⟨4, 4⟩).2.1 (by decide)⟩

/-- C5: `currentPlayer` strictly alternates after every accepted `makeMove`
and is unchanged after a rejected one. -/
theorem C5_player_alternates (gs : GameState) (fromPos toPos : Position) :
    ((makeMove gs fromPos toPos).1 = true →
      (makeMove gs fromPos toPos).2.currentPlayer = getOppositeColor gs.currentPlayer)
    ∧ ((makeMove gs fromPos toPos).1 = false →
      (makeMove gs fromPos toPos).2.currentPlayer = gs.currentPlayer) := by
  cases h : boardGet gs.board fromPos with
  | none =>
    refine ⟨fun htrue => ?_, fun _ => by simp [makeMove, h]⟩
    simp [makeMove, h] at htrue
  | some piece =>
    refine ⟨fun _ => by simp [makeMove, h, updateGameStatus_currentPlayer], fun hfalse => ?_⟩
    simp [makeMove, h] at hfalse

/-- C5 witness: the accepted move (6,4)→(4,4) flips white to black, and the
rejected move from empty (3,3) leaves white to move. -/
theorem C5_witness :
    (makeMove initializeGame ⟨6, 4⟩ ⟨4, 4⟩).2.currentPlayer
        = getOppositeColor initializeGame.currentPlayer
    ∧ (makeMove initializeGame ⟨3, 3⟩ ⟨4, 4⟩).2.currentPlayer = initializeGame.currentPlayer :=
  ⟨(C5_player_alternates initializeGame ⟨6, 4⟩ ⟨4, 4⟩).1 (by decide),
   (C5_player_alternates initializeGame ⟨3, 3⟩ ⟨4, 4⟩).2 (by decide)⟩

/-- An intact 8x8 grid, the shape every reachable `GameState` board has. -/
def BoardWF (b : Board) : Prop := b.length = 8 ∧ ∀ r ∈ b, r.length = 8

instance (b : Board) : Decidable (BoardWF b) := by
  unfold BoardWF; infer_instance

theorem boardWF_row (b : Board) (hWF : BoardWF b) (n : Nat) (row : List (Option Piece))
    (h : b.get? n = some row) : row.length = 8 :=
  hWF.2 row (List.get?_mem h)

theorem isValidPosition_iff (pos : Position) :
    isValidPosition pos = true ↔ 0 ≤ pos.row ∧ pos.row < 8 ∧ 0 ≤ pos.col ∧ pos.col < 8 := by
  simp [isValidPosition]
  tauto

theorem boardGet_boardSet_same (b : Board) (pos : Position) (v : Option Piece)
    (hWF : BoardWF b) (hv : isValidPosition pos = true) :
    boardGet (boardSet b pos v) pos = v := by
  rw [isValidPosition_iff] at hv
  obtain ⟨hr0, hr8, hc0, hc8⟩ := hv
  have hrlt : pos.row.toNat < b.length := by rw [hWF.1]; omega
  obtain ⟨row, hrow⟩ : ∃ row, b.get? pos.row.toNat = some row := by
    cases h : b.get? pos.row.toNat with
    | none => rw [List.get?_eq_none] at h; omega
    | some r => exact ⟨r, rfl⟩
  have hrowlen : row.length = 8 := boardWF_row b hWF _ row hrow
  simp only [boardSet, boardGet, if_pos (And.intro hr0 hc0)]
  rw [List.getD_eq_get?, hrow]
  simp only [Option.getD_some]
  rw [List.get?_set_eq_of_lt _ hrlt]
  simp only [Option.getD_some]
  rw [List.get?_set_eq_of_lt _ (by rw [hrowlen]; omega)]
  rfl

theorem boardGet_boardSet_ne (b : Board) (pos : Position) (v : Option Piece) (q : Position)
    (h : ¬(pos.row = q.row ∧ pos.col = q.col)) :
    boardGet (boardSet b pos v) q = boardGet b q := by
  by_cases hp : 0 ≤ pos.row ∧ 0 ≤ pos.col
  · by_cases hq : 0 ≤ q.row ∧ 0 ≤ q.col
    · simp only [boardSet, boardGet, if_pos hp, if_pos hq]
      by_cases hr : pos.row = q.row
      · have hcol : pos.col ≠ q.col := fun hc => h ⟨hr, hc⟩
        have hcn : pos.col.toNat ≠ q.col.toNat := by omega
        have hrn : pos.row.toNat = q.row.toNat := by omega
        rw [← hrn]
        cases hrow : b.get? pos.row.toNat with
        | none =>
          have hge : b.length ≤ pos.row.toNat := List.get?_eq_none.mp hrow
          have hset : ∀ x, b.set pos.row.toNat x = b := fun x => List.set_eq_of_length_le hge
          simp only [hset, hrow]
        | some row =>
          obtain ⟨hlt, -⟩ := List.get?_eq_some.mp hrow
          rw [List.get?_set_eq_of_lt _ hlt]
          simp only [Option.getD_some]
          rw [List.getD_eq_get?, hrow]
          simp only [Option.getD_some]
          rw [List.get?_set_ne _ _ hcn]
      · have hrn : pos.row.toNat ≠ q.row.toNat := by omega
        rw [List.get?_set_ne _ _ hrn]
    · simp only [boardGet, if_neg hq]
  · simp only [boardSet, if_neg hp]

theorem boardSet_boardSet_same (b : Board) (pos : Position) (v w : Option Piece) :
    boardSet (boardSet b pos v) pos w = boardSet b pos w := by
  by_cases hp : 0 ≤ pos.row ∧ 0 ≤ pos.col
  · simp only [boardSet, if_pos hp]
    cases hrow : b.get? pos.row.toNat with
    | none =>
      have hge : b.length ≤ pos.row.toNat := List.get?_eq_none.mp hrow
      have hset : ∀ x, b.set pos.row.toNat x = b := fun x => List.set_eq_of_length_le hge
      simp only [hset]
    | some row =>
      obtain ⟨hlt, -⟩ := List.get?_eq_some.mp hrow
      have hD1 : b.getD pos.row.toNat [] = row := by rw [List.getD_eq_get?, hrow]; rfl
      have hD2 : (b.set pos.row.toNat (row.set pos.col.toNat v)).getD pos.row.toNat [] =
          row.set pos.col.toNat v := by
        rw [List.getD_eq_get?, List.get?_set_eq_of_lt _ hlt]; rfl
      rw [hD1, hD2, List.set_set, List.set_set]
  · simp only [boardSet, if_neg hp]

theorem boardSet_comm (b : Board) (p q : Position) (v w : Option Piece)
    (h : ¬(p.row = q.row ∧ p.col = q.col)) :
    boardSet (boardSet b p v) q w = boardSet (boardSet b q w) p v := by
  by_cases hp : 0 ≤ p.row ∧ 0 ≤ p.col
  · by_cases hq : 0 ≤ q.row ∧ 0 ≤ q.col
    · simp only [boardSet, if_pos hp, if_pos hq]
      by_cases hr : p.row = q.row
      · have hcol : p.col ≠ q.col := fun hc => h ⟨hr, hc⟩
        have hcn : p.col.toNat ≠ q.col.toNat := by omega
        have hrn : p.row.toNat = q.row.toNat := by omega
        rw [← hrn]
        cases hrow : b.get? p.row.toNat with
        | none =>
          have hge : b.length ≤ p.row.toNat := List.get?_eq_none.mp hrow
          have hset : ∀ x, b.set p.row.toNat x = b := fun x => List.set_eq_of_length_le hge
          have hsetlen : ∀ x y, (b.set p.row.toNat x).set p.row.toNat y = b := by
            intro x y; rw [hset, hset]
          simp only [hset, hsetlen]
        | some row =>
          obtain ⟨hlt, -⟩ := List.get?_eq_some.mp hrow
          have hD1 : b.getD p.row.toNat [] = row := by rw [List.getD_eq_get?, hrow]; rfl
          have hD2 : ∀ x, (b.set p.row.toNat x).getD p.row.toNat [] = x := by
            intro x; rw [List.getD_eq_get?, List.get?_set_eq_of_lt _ hlt]; rfl
          simp only [hD1, hD2, List.set_set]
          rw [List.set_comm _ _ _ hcn]
      · have hrn : p.row.toNat ≠ q.row.toNat := by omega
        have hD1 : ∀ x, (b.set p.row.toNat x).getD q.row.toNat [] = b.getD q.row.toNat [] := by
          intro x; rw [List.getD_eq_get?, List.get?_set_ne _ _ hrn, List.getD_eq_get?]
        have hD2 : ∀ x, (b.set q.row.toNat x).getD p.row.toNat [] = b.getD p.row.toNat [] := by
          intro x
          rw [List.getD_eq_get?, List.get?_set_ne _ _ (Ne.symm hrn), List.getD_eq_get?]
        simp only [hD1, hD2]
        rw [List.set_comm _ _ _ hrn]
    · simp only [boardSet, if_neg hq]
  · simp only [boardSet, if_neg hp]

theorem boardWF_boardSet (b : Board) (pos : Position) (v : Option Piece) (hWF : BoardWF b) :
    BoardWF (boardSet b pos v) := by
  by_cases hp : 0 ≤ pos.row ∧ 0 ≤ pos.col
  · simp only [boardSet, if_pos hp]
    by_cases hlt : pos.row.toNat < b.length
    · obtain ⟨row, hrow⟩ : ∃ row, b.get? pos.row.toNat = some row := by
        cases h : b.get? pos.row.toNat with
        | none => rw [List.get?_eq_none] at h; omega
        | some r => exact ⟨r, rfl⟩
      have hD1 : b.getD pos.row.toNat [] = row := by rw [List.getD_eq_get?, hrow]; rfl
      constructor
      · rw [List.length_set]; exact hWF.1
      · intro r hr
        rcases List.mem_or_eq_of_mem_set hr with hmem | heq
        · exact hWF.2 r hmem
        · rw [heq, List.length_set, hD1]
          exact boardWF_row b hWF _ row hrow
    · rw [List.set_eq_of_length_le (by omega)]
      exact hWF
  · simp only [boardSet, if_neg hp]
    exact hWF

theorem boardGet_some_valid (b : Board) (pos : Position) (p : Piece) (hWF : BoardWF b)
    (h : boardGet b pos = some p) : isValidPosition pos = true := by
  simp only [boardGet] at h
  split at h
  · next hpos =>
    cases hrow : b.get? pos.row.toNat with
    | none => rw [hrow] at h; simp at h
    | some row =>
      rw [hrow] at h
      simp only [Option.getD_some] at h
      cases hcol : row.get? pos.col.toNat with
      | none => rw [hcol] at h; simp at h
      | some o =>
        obtain ⟨hclt, -⟩ := List.get?_eq_some.mp hcol
        obtain ⟨hrlt, -⟩ := List.get?_eq_some.mp hrow
        have h8 : row.length = 8 := boardWF_row b hWF _ row hrow
        rw [isValidPosition_iff]
        rw [hWF.1] at hrlt
        rw [h8] at hclt
        omega
  · exact absurd h (by simp)

theorem makeMove_board_some (gs : GameState) (fromPos toPos : Position) (p : Piece)
    (hp : boardGet gs.board fromPos = some p) :
    (makeMove gs fromPos toPos).2.board =
      if promoCond p toPos then
        boardSet (boardSet (boardSet gs.board toPos (some { p with hasMoved := true }))
          fromPos none) toPos (some { p with type := .queen, hasMoved := true })
      else boardSet (boardSet gs.board toPos (some { p with hasMoved := true })) fromPos none := by
  by_cases hpr : promoCond p toPos <;>
    simp [makeMove, hp, hpr, updateGameStatus_board]

theorem makeMove_history_some (gs : GameState) (fromPos toPos : Position) (p : Piece)
    (hp : boardGet gs.board fromPos = some p) :
    ∃ mv : Move, (makeMove gs fromPos toPos).2.moveHistory = gs.moveHistory ++ [mv]
      ∧ mv.promotion = (if promoCond p toPos then some PieceType.queen else none) := by
  by_cases hpr : promoCond p toPos
  · refine ⟨⟨fromPos, toPos, ⟨p.type, p.color, p.hasMoved⟩,
      (match boardGet gs.board toPos with
       | some cap => some ⟨cap.type, cap.color, cap.hasMoved⟩
       | none => none), none, none, some .queen⟩, ?_, ?_⟩
    · simp [makeMove, hp, hpr, updateGameStatus_moveHistory]
    · simp [hpr]
  · refine ⟨⟨fromPos, toPos, ⟨p.type, p.color, p.hasMoved⟩,
      (match boardGet gs.board toPos with
       | some cap => some ⟨cap.type, cap.color, cap.hasMoved⟩
       | none => none), none, none, none⟩, ?_, ?_⟩
    · simp [makeMove, hp, hpr, updateGameStatus_moveHistory]
    · simp [hpr]

/-- C6: a pawn arriving on the farthest rank (row 0 for white, row 7 for
black) is replaced by a queen of its color and the recorded `Move` carries
`promotion = queen`; every other accepted move records no promotion, keeps the
moved piece's kind, and changes no other square. -/
theorem C6_promotion (gs : GameState) (fromPos toPos : Position) (p : Piece)
    (hWF : BoardWF gs.board)
    (hp : boardGet gs.board fromPos = some p)
    (ht : isValidPosition toPos = true)
    (hne : ¬(fromPos.row = toPos.row ∧ fromPos.col = toPos.col)) :
    (promoCond p toPos →
      boardGet (makeMove gs fromPos toPos).2.board toPos
          = some { type := .queen, color := p.color, hasMoved := true }
      ∧ ∃ mv : Move, (makeMove gs fromPos toPos).2.moveHistory = gs.moveHistory ++ [mv]
          ∧ mv.promotion = some .queen)
    ∧ (¬promoCond p toPos →
      boardGet (makeMove gs fromPos toPos).2.board toPos
          = some { type := p.type, color := p.color, hasMoved := true }
      ∧ boardGet (makeMove gs fromPos toPos).2.board fromPos = none
      ∧ (∀ q : Position, ¬(fromPos.row = q.row ∧ fromPos.col = q.col) →
          ¬(toPos.row = q.row ∧ toPos.col = q.col) →
          boardGet (makeMove gs fromPos toPos).2.board q = boardGet gs.board q)
      ∧ ∃ mv : Move, (makeMove gs fromPos toPos).2.moveHistory = gs.moveHistory ++ [mv]
          ∧ mv.promotion = none) := by
  have hf : isValidPosition fromPos = true := boardGet_some_valid _ _ _ hWF hp
  have hb := makeMove_board_some gs fromPos toPos p hp
  have hWF1 : BoardWF (boardSet gs.board toPos (some { p with hasMoved := true })) :=
    boardWF_boardSet _ _ _ hWF
  have hWF2 : BoardWF (boardSet (boardSet gs.board toPos (some { p with hasMoved := true }))
      fromPos none) := boardWF_boardSet _ _ _ hWF1
  constructor
  · intro hpr
    rw [if_pos hpr] at hb
    constructor
    · rw [hb, boardGet_boardSet_same _ _ _ hWF2 ht]
    · obtain ⟨mv, hh, hpm⟩ := makeMove_history_some gs fromPos toPos p hp
      rw [if_pos hpr] at hpm
      exact ⟨mv, hh, hpm⟩
  · intro hpr
    rw [if_neg hpr] at hb
    refine ⟨?_, ?_, ?_, ?_⟩
    · rw [hb, boardGet_boardSet_ne _ _ _ _ hne, boardGet_boardSet_same _ _ _ hWF ht]
    · rw [hb, boardGet_boardSet_same _ _ _ hWF1 hf]
    · intro q hq1 hq2
      rw [hb, boardGet_boardSet_ne _ _ _ _ hq1, boardGet_boardSet_ne _ _ _ _ hq2]
    · obtain ⟨mv, hh, hpm⟩ := makeMove_history_some gs fromPos toPos p hp
      rw [if_neg hpr] at hpm
      exact ⟨mv, hh, hpm⟩

/-- C6 witness: on a board with a white pawn on (1,0) and (0,0) empty, the
move (1,0)→(0,0) promotes to a white queen and records `promotion = queen`;
in the initial position the pawn move (6,4)→(5,4) is a non-promoting move that
keeps the pawn a pawn, empties (6,4) and records no promotion. -/
theorem C6_witness :
    (boardGet (makeMove { initializeGame with
        board := boardSet (boardSet (boardSet createInitialBoard ⟨1, 0⟩
          (some ⟨.pawn, .white, true⟩)) ⟨0, 0⟩ none) ⟨6, 0⟩ none } ⟨1, 0⟩ ⟨0, 0⟩).2.board ⟨0, 0⟩
        = some { type := .queen, color := PieceColor.white, hasMoved := true }
      ∧ ∃ mv : Move, (makeMove { initializeGame with
          board := boardSet (boardSet (boardSet createInitialBoard ⟨1, 0⟩
            (some ⟨.pawn, .white, true⟩)) ⟨0, 0⟩ none) ⟨6, 0⟩ none } ⟨1, 0⟩ ⟨0, 0⟩).2.moveHistory
          = ({ initializeGame with
          board := boardSet (boardSet (boardSet createInitialBoard ⟨1, 0⟩
            (some ⟨.pawn, .white, true⟩)) ⟨0, 0⟩ none) ⟨6, 0⟩ none } : GameState).moveHistory ++ [mv]
          ∧ mv.promotion = some .queen)
    ∧ (boardGet (makeMove initializeGame ⟨6, 4⟩ ⟨5, 4⟩).2.board ⟨5, 4⟩
        = some { type := PieceType.pawn, color := PieceColor.white, hasMoved := true }
      ∧ boardGet (makeMove initializeGame ⟨6, 4⟩ ⟨5, 4⟩).2.board ⟨6, 4⟩ = none
      ∧ ∃ mv : Move, (makeMove initializeGame ⟨6, 4⟩ ⟨5, 4⟩).2.moveHistory
          = initializeGame.moveHistory ++ [mv] ∧ mv.promotion = none) :=
  ⟨(C6_promotion _ ⟨1, 0⟩ ⟨0, 0⟩ ⟨.pawn, .white, true⟩ (by decide) (by decide) (by decide)
      (by decide)).1 (by decide),
   (fun h => ⟨h.1, h.2.1, h.2.2.2⟩)
     ((C6_promotion initializeGame ⟨6, 4⟩ ⟨5, 4⟩ ⟨.pawn, .white, false⟩ (by decide) (by decide)
        (by decide) (by decide)).2 (by decide))⟩

theorem boardGet_nil (pos : Position) : boardGet ([] : Board) pos = none := by
  simp [boardGet]

/-- C9: on any board — malformed ones included — holding no king of the given
color, `isKingInCheck` answers `false`; the scan is a total function of the
board. -/
theorem C9_missing_king_not_check (b : Board) (color : PieceColor)
    (h : ∀ pos ∈ allSquares, ∀ piece : Piece, boardGet b pos = some piece →
        ¬(piece.type = .king ∧ piece.color = color)) :
    isKingInCheck color b = false := by
  have hf : findKing color b = none := by
    rw [findKing, List.find?_eq_none]
    intro pos hmem
    cases hpc : boardGet b pos with
    | none => simp [hpc]
    | some piece =>
      simp only [hpc, Bool.and_eq_true, decide_eq_true_eq, not_and]
      intro hk hc
      exact h pos hmem piece hpc ⟨hk, hc⟩
  simp only [isKingInCheck, hf]

/-- C9 witness: the empty array — a thoroughly malformed board — has no white
king and is reported as not in check. -/
theorem C9_witness : isKingInCheck PieceColor.white ([] : Board) = false :=
  C9_missing_king_not_check [] PieceColor.white
    (fun pos _ piece hpc => absurd ((boardGet_nil pos).symm.trans hpc) (by simp))

set_option maxRecDepth 10000 in
/-- C7: in the freshly initialised game, white has exactly 20 legal moves —
16 pawn moves and 4 knight moves — and black likewise has exactly 20. -/
theorem C7_initial_move_count :
    (getAllLegalMoves createInitialBoard .white).length = 20
    ∧ ((getAllLegalMoves createInitialBoard .white).filter
        (fun m => m.piece.type == PieceType.pawn)).length = 16
    ∧ ((getAllLegalMoves createInitialBoard .white).filter
        (fun m => m.piece.type == PieceType.knight)).length = 4
    ∧ (getAllLegalMoves createInitialBoard .black).length = 20 := by
  decide

/-- A concrete engine record for the snapshot claims: all three array
references point at slot 0 of their stores. -/
def engineRef0 : GameStateRef :=
  { boardRef := 0, legalMovesRef := 0, moveHistoryRef := 0, currentPlayer := .white,
    isCheck := false, isCheckmate := false, isStalemate := false, gameOver := false,
    selectedSquare := none, difficulty := .medium }

/-- The matching store: the engine's board array holds the opening position. -/
def heap0 : Heap := { boards := [createInitialBoard], posLists := [[]], moveLists := [[]] }

/-- C1 counterexample: `getGameState` hands out the engine's own board array.
Clearing square (0,0) through the snapshot's board reference changes the
engine-owned state, and changes the engine's subsequent behaviour — the move
out of (0,0) that was accepted before the mutation is now rejected. -/
theorem C1_counterexample :
    (denoteState (heap0.writeBoard (getGameState engineRef0).boardRef
        (boardSet (heap0.boardAt (getGameState engineRef0).boardRef) ⟨0, 0⟩ none)) engineRef0
      ≠ denoteState heap0 engineRef0)
    ∧ (makeMove (denoteState (heap0.writeBoard (getGameState engineRef0).boardRef
        (boardSet (heap0.boardAt (getGameState engineRef0).boardRef) ⟨0, 0⟩ none)) engineRef0)
        ⟨0, 0⟩ ⟨2, 0⟩).1 = false
    ∧ (makeMove (denoteState heap0 engineRef0) ⟨0, 0⟩ ⟨2, 0⟩).1 = true := by
  refine ⟨?_, by decide, by decide⟩
  intro h
  have := congrArg (fun gs => boardGet gs.board ⟨0, 0⟩) h
  revert this
  decide

/-- C1 amended: `getGameState` returns `{ ...this.gameState }`, a shallow
copy — a fresh record that agrees with the engine field-for-field, array
references included; writing through the snapshot's board reference is
writing the engine's board. -/
theorem C1_amended (h : Heap) (g : GameStateRef) (b : Board)
    (hr : g.boardRef < h.boards.length) :
    getGameState g = g
    ∧ (h.writeBoard (getGameState g).boardRef b).boardAt g.boardRef = b
    ∧ (denoteState (h.writeBoard (getGameState g).boardRef b) g).board = b := by
  have hread : (h.writeBoard g.boardRef b).boardAt g.boardRef = b := by
    simp only [Heap.writeBoard, Heap.boardAt]
    rw [List.get?_set_eq_of_lt _ hr]
    rfl
  exact ⟨rfl, hread, hread⟩

/-- C1 amended witness: writing an empty board through the snapshot of the
concrete engine record is visible through the engine's own reference. -/
theorem C1_amended_witness :
    getGameState engineRef0 = engineRef0
    ∧ (heap0.writeBoard (getGameState engineRef0).boardRef []).boardAt engineRef0.boardRef = []
    ∧ (denoteState (heap0.writeBoard (getGameState engineRef0).boardRef []) engineRef0).board
        = [] :=
  C1_amended heap0 engineRef0 [] (by decide)

theorem checkScanSt_eq (color : PieceColor) (kp : Position) (poss : List Position) (b : Board) :
    checkScanSt color kp poss b =
      (poss.any (fun pos =>
        match boardGet b pos with
        | some piece =>
          decide (piece.color ≠ color) &&
            (getLegalMovesIgnoringCheck b pos).any (fun m => isSamePosition m kp)
        | none => false), b) := by
  induction poss with
  | nil => rfl
  | cons pos rest ih =>
    simp only [checkScanSt, List.any_cons]
    cases hpc : boardGet b pos with
    | none => simpa using ih
    | some piece =>
      by_cases hc : piece.color ≠ color
      · cases ha : (getLegalMovesIgnoringCheck b pos).any (fun m => isSamePosition m kp) with
        | true => simp [hc, ha]
        | false => simpa [hc, ha] using ih
      · simpa [hc] using ih

theorem isKingInCheckSt_eq (color : PieceColor) (b : Board) :
    isKingInCheckSt color b = (isKingInCheck color b, b) := by
  simp only [isKingInCheckSt, isKingInCheck]
  cases findKing color b with
  | none => rfl
  | some kp => exact checkScanSt_eq color kp allSquares b

theorem wouldBeInCheckSt_eq (gs : GameState) (fromPos toPos : Position) (color : PieceColor) :
    wouldBeInCheckSt gs fromPos toPos color = (wouldBeInCheck gs.board fromPos toPos color, gs) := by
  simp only [wouldBeInCheckSt, wouldBeInCheck, isKingInCheckSt_eq]

theorem legalFilterSt_eq (gs : GameState) (pos : Position) (color : PieceColor)
    (ms : List Position) (g : GameState) :
    legalFilterSt gs pos color ms g =
      (ms.filter (fun m => !wouldBeInCheck g.board pos m color), g) := by
  induction ms with
  | nil => rfl
  | cons m rest ih =>
    simp only [legalFilterSt, wouldBeInCheckSt_eq, ih, List.filter_cons]
    cases h : wouldBeInCheck g.board pos m color <;> simp [h]

theorem getLegalMovesSt_eq (gs : GameState) (pos : Position) :
    getLegalMovesSt gs pos = (getLegalMoves gs.board pos, gs) := by
  simp only [getLegalMovesSt, getLegalMoves]
  cases boardGet gs.board pos with
  | none => rfl
  | some piece => simp only [legalFilterSt_eq]

/-- The contribution of one square to `getAllLegalMoves`. -/
def squareMoves (b : Board) (color : PieceColor) (pos : Position) : List Move :=
  match boardGet b pos with
  | some piece =>
    if piece.color = color then
      (getLegalMoves b pos).map (fun m =>
        { fromPos := pos, toPos := m,
          piece := { type := piece.type, color := piece.color, hasMoved := piece.hasMoved },
          capturedPiece :=
            match boardGet b m with
            | some cap => some { type := cap.type, color := cap.color, hasMoved := cap.hasMoved }
            | none => none,
          castling := none, enPassant := none, promotion := none })
    else []
  | none => []

theorem getAllLegalMoves_flatMap (b : Board) (color : PieceColor) :
    getAllLegalMoves b color = allSquares.flatMap (squareMoves b color) := rfl

theorem allMovesScanSt_eq (color : PieceColor) (poss : List Position) (g : GameState) :
    allMovesScanSt color poss g = (poss.flatMap (squareMoves g.board color), g) := by
  induction poss with
  | nil => rfl
  | cons pos rest ih =>
    simp only [allMovesScanSt, List.flatMap_cons]
    cases hpc : boardGet g.board pos with
    | none => simpa [hpc, squareMoves] using ih
    | some piece =>
      by_cases hc : piece.color = color
      · simp [hpc, hc, getLegalMovesSt_eq, ih, squareMoves]
      · simpa [hpc, hc, squareMoves] using ih

/-- C10: the legal-move queries are pure — the state-threaded translations of
`getLegalMoves` and `getAllLegalMoves` (which pass the engine's own arrays
through the auxiliary check-scan instances) return the engine state exactly as
it came in, together with the same move lists the pure read-only functions
produce. -/
theorem C10_queries_pure (gs : GameState) :
    (∀ pos : Position, getLegalMovesSt gs pos = (getLegalMoves gs.board pos, gs))
    ∧ (∀ color : PieceColor,
        getAllLegalMovesSt gs color = (getAllLegalMoves gs.board color, gs)) := by
  refine ⟨fun pos => getLegalMovesSt_eq gs pos, fun color => ?_⟩
  rw [getAllLegalMovesSt, allMovesScanSt_eq, getAllLegalMoves_flatMap]

theorem makeMove_history_extends (gs : GameState) (fromPos toPos : Position) :
    ∃ e : List Move, (makeMove gs fromPos toPos).2.moveHistory = gs.moveHistory ++ e := by
  cases hp : boardGet gs.board fromPos with
  | none => exact ⟨[], by simp [makeMove, hp]⟩
  | some p =>
    obtain ⟨mv, hh, -⟩ := makeMove_history_some gs fromPos toPos p hp
    exact ⟨[mv], hh⟩

theorem maxLoop_extends (rec : Move → Score → Score → List Move → Score × List Move)
    (hrec : ∀ m a b h, ∃ e, (rec m a b h).2 = h ++ e) :
    ∀ (ms : List Move) (alpha beta acc : Score) (hist : List Move),
      ∃ e, (maxLoop rec ms alpha beta acc hist).2 = hist ++ e := by
  intro ms
  induction ms with
  | nil => exact fun a b acc h => ⟨[], by simp [maxLoop]⟩
  | cons m rest ih =>
    intro a b acc h
    simp only [maxLoop]
    obtain ⟨e1, he1⟩ := hrec m a b h
    split
    · exact ⟨e1, he1⟩
    · obtain ⟨e2, he2⟩ := ih (Score.max a (rec m a b h).1) b (Score.max acc (rec m a b h).1)
        (rec m a b h).2
      exact ⟨e1 ++ e2, by rw [he2, he1, List.append_assoc]⟩

theorem minLoop_extends (rec : Move → Score → Score → List Move → Score × List Move)
    (hrec : ∀ m a b h, ∃ e, (rec m a b h).2 = h ++ e) :
    ∀ (ms : List Move) (alpha beta acc : Score) (hist : List Move),
      ∃ e, (minLoop rec ms alpha beta acc hist).2 = hist ++ e := by
  intro ms
  induction ms with
  | nil => exact fun a b acc h => ⟨[], by simp [minLoop]⟩
  | cons m rest ih =>
    intro a b acc h
    simp only [minLoop]
    obtain ⟨e1, he1⟩ := hrec m a b h
    split
    · exact ⟨e1, he1⟩
    · obtain ⟨e2, he2⟩ := ih a (Score.min b (rec m a b h).1) (Score.min acc (rec m a b h).1)
        (rec m a b h).2
      exact ⟨e1 ++ e2, by rw [he2, he1, List.append_assoc]⟩

theorem minimax_hist_extends (g : GameState) :
    ∀ (depth : Nat) (mv : Move) (isMax : Bool) (alpha beta : Score) (hist : List Move),
      ∃ e, (minimax g depth mv isMax alpha beta hist).2 = hist ++ e := by
  intro depth
  induction depth with
  | zero => exact fun mv isMax a b h => ⟨[], by simp [minimax]⟩
  | succ d ih =>
    intro mv isMax a b hist
    simp only [minimax]
    obtain ⟨e0, he0⟩ :=
      makeMove_history_extends { g with moveHistory := hist, board := copyBoard g.board }
        mv.fromPos mv.toPos
    split
    · exact ⟨e0, he0⟩
    · split
      · obtain ⟨e1, he1⟩ := maxLoop_extends _ (fun m a2 b2 h2 => ih m false a2 b2 h2) _ a b
          .negInf _
        exact ⟨e0 ++ e1, by rw [he1, he0, List.append_assoc]⟩
      · obtain ⟨e1, he1⟩ := minLoop_extends _ (fun m a2 b2 h2 => ih m true a2 b2 h2) _ a b
          .posInf _
        exact ⟨e0 ++ e1, by rw [he1, he0, List.append_assoc]⟩

theorem minimax_hist_grows (g : GameState) (d : Nat) (mv : Move) (isMax : Bool)
    (alpha beta : Score) (hist : List Move) (p : Piece)
    (hp : boardGet g.board mv.fromPos = some p) :
    hist.length < ((minimax g (d + 1) mv isMax alpha beta hist).2).length := by
  simp only [minimax]
  have hp2 : boardGet ({ g with moveHistory := hist, board := copyBoard g.board} :
      GameState).board mv.fromPos = some p := by
    show boardGet (copyBoard g.board) mv.fromPos = some p
    rw [copyBoard_eq]; exact hp
  obtain ⟨mv0, hh, -⟩ :=
    makeMove_history_some { g with moveHistory := hist, board := copyBoard g.board }
      mv.fromPos mv.toPos p hp2
  have hh2 : (makeMove { g with moveHistory := hist, board := copyBoard g.board }
      mv.fromPos mv.toPos).2.moveHistory = hist ++ [mv0] := hh
  split
  · rw [hh2]; simp
  · split
    · obtain ⟨e1, he1⟩ := maxLoop_extends _
        (fun m a2 b2 h2 => minimax_hist_extends g d m false a2 b2 h2) _ alpha beta .negInf _
      rw [he1, hh2]
      simp [List.length_append]
    · obtain ⟨e1, he1⟩ := minLoop_extends _
        (fun m a2 b2 h2 => minimax_hist_extends g d m true a2 b2 h2) _ alpha beta .posInf _
      rw [he1, hh2]
      simp [List.length_append]

theorem hardLoop_extends (g : GameState) (depth : Nat) :
    ∀ (ms : List Move) (best : Option Move) (bestScore : Score) (hist : List Move),
      ∃ e, (hardLoop g depth ms best bestScore hist).2 = hist ++ e := by
  intro ms
  induction ms with
  | nil => exact fun best bs h => ⟨[], by simp [hardLoop]⟩
  | cons m rest ih =>
    intro best bs h
    simp only [hardLoop]
    obtain ⟨e1, he1⟩ := minimax_hist_extends g (depth - 1) m false .negInf .posInf h
    split
    · obtain ⟨e2, he2⟩ := ih (some m) (minimax g (depth - 1) m false .negInf .posInf h).1
        (minimax g (depth - 1) m false .negInf .posInf h).2
      exact ⟨e1 ++ e2, by rw [he2, he1, List.append_assoc]⟩
    · obtain ⟨e2, he2⟩ := ih best bs (minimax g (depth - 1) m false .negInf .posInf h).2
      exact ⟨e1 ++ e2, by rw [he2, he1, List.append_assoc]⟩

theorem getAllLegalMoves_mem_from (b : Board) (color : PieceColor) (mv : Move)
    (h : mv ∈ getAllLegalMoves b color) : ∃ p : Piece, boardGet b mv.fromPos = some p := by
  rw [getAllLegalMoves_flatMap, List.mem_flatMap] at h
  obtain ⟨pos, -, hmem⟩ := h
  unfold squareMoves at hmem
  cases hpc : boardGet b pos with
  | none => simp only [hpc] at hmem; cases hmem
  | some piece =>
    simp only [hpc] at hmem
    by_cases hc : piece.color = color
    · rw [if_pos hc, List.mem_map] at hmem
      obtain ⟨m2, -, hm2⟩ := hmem
      subst hm2
      exact ⟨piece, hpc⟩
    · rw [if_neg hc] at hmem; cases hmem

/-- The engine's `moveHistory` array strictly grows across a difficulty-hard
`getBestMove` whenever black has at least one legal move: the first root
`minimax` call pushes its hypothetical move onto the shared array and nothing
in the search ever removes entries. -/
theorem getBestMoveHard_hist_grows (g : GameState)
    (h : getAllLegalMoves g.board .black ≠ []) :
    ∃ ext : List Move, ext ≠ [] ∧ (getBestMoveHard g).2 = g.moveHistory ++ ext := by
  rw [getBestMoveHard]
  rw [if_neg (by simpa [List.isEmpty_iff] using h)]
  cases hm : getAllLegalMoves g.board .black with
  | nil => exact absurd hm h
  | cons m rest =>
    rw [getHardMove]
    simp only [hardLoop, List.head?]
    obtain ⟨piece, hpiece⟩ := getAllLegalMoves_mem_from g.board .black m
      (by rw [hm]; exact List.mem_cons_self m rest)
    have hgrow : g.moveHistory.length <
        ((minimax g (3 - 1) m false .negInf .posInf g.moveHistory).2).length :=
      minimax_hist_grows g 1 m false .negInf .posInf g.moveHistory piece hpiece
    obtain ⟨e1, he1⟩ := minimax_hist_extends g (3 - 1) m false .negInf .posInf g.moveHistory
    have he1ne : e1 ≠ [] := by
      intro hnil
      rw [he1, hnil, List.append_nil] at hgrow
      omega
    split
    · obtain ⟨e2, he2⟩ := hardLoop_extends g 3 rest (some m)
        (minimax g (3 - 1) m false .negInf .posInf g.moveHistory).1
        (minimax g (3 - 1) m false .negInf .posInf g.moveHistory).2
      refine ⟨e1 ++ e2, by simp [he1ne], ?_⟩
      rw [he2, he1, List.append_assoc]
    · obtain ⟨e2, he2⟩ := hardLoop_extends g 3 rest (some m) Score.negInf
        (minimax g (3 - 1) m false .negInf .posInf g.moveHistory).2
      refine ⟨e1 ++ e2, by simp [he1ne], ?_⟩
      rw [he2, he1, List.append_assoc]

/-- An all-empty 8x8 board. -/
def emptyBoard : Board := List.replicate 8 (List.replicate 8 none)

/-- Two bare kings: black on (0,0), white on (7,7). -/
def kingsBoard : Board :=
  boardSet (boardSet emptyBoard ⟨0, 0⟩ (some ⟨.king, .black, false⟩)) ⟨7, 7⟩
    (some ⟨.king, .white, false⟩)

/-- A concrete engine state at difficulty `hard` with an empty move history. -/
def kingsGame : GameState :=
  { board := kingsBoard
    currentPlayer := .black
    isCheck := false
    isCheckmate := false
    isStalemate := false
    gameOver := false
    selectedSquare := none
    legalMoves := []
    moveHistory := []
    difficulty := .hard }

/-- C2 counterexample: at difficulty `hard`, `getBestMove` does mutate the
authoritative state — after the search the engine's `moveHistory` array (the
one shared through the shallow `getGameState` copy, onto which every
hypothetical `makeMove` pushes) no longer holds its original contents. -/
theorem C2_counterexample : (getBestMoveHard kingsGame).2 ≠ kingsGame.moveHistory := by
  obtain ⟨ext, hne, heq⟩ := getBestMoveHard_hist_grows kingsGame (by decide)
  rw [heq]
  simpa [kingsGame] using hne

/-- C2 amended: the search never touches the engine's board, player, selection
or status flags (in this embedding they are the untouched parameter `g`), but
at difficulty `hard` every hypothetical `makeMove` pushes onto the engine's
shared `moveHistory` array, so whenever black has a legal move the history has
strictly grown — by exactly the pushed search moves — once `getBestMove`
returns. -/
theorem C2_amended (g : GameState) (h : getAllLegalMoves g.board .black ≠ []) :
    ∃ ext : List Move, ext ≠ [] ∧ (getBestMoveHard g).2 = g.moveHistory ++ ext :=
  getBestMoveHard_hist_grows g h

/-- C2 amended witness: the two-kings position has black moves, so the search
at difficulty `hard` leaves the history strictly longer. -/
theorem C2_amended_witness :
    ∃ ext : List Move, ext ≠ [] ∧ (getBestMoveHard kingsGame).2
        = kingsGame.moveHistory ++ ext :=
  C2_amended kingsGame (by decide)

/-- The occupancy-and-color view of a square: all move generators read other
squares only through this view (empty or which color sits there). -/
def occ (b : Board) (q : Position) : Option PieceColor := (boardGet b q).map Piece.color

theorem occ_cases {b1 b2 : Board} {q : Position} (h : occ b1 q = occ b2 q) :
    (boardGet b1 q = none ∧ boardGet b2 q = none)
    ∨ (∃ t1 t2 : Piece, boardGet b1 q = some t1 ∧ boardGet b2 q = some t2
        ∧ t1.color = t2.color) := by
  unfold occ at h
  cases h1 : boardGet b1 q with
  | none =>
    cases h2 : boardGet b2 q with
    | none => exact Or.inl ⟨rfl, rfl⟩
    | some t2 => rw [h1, h2] at h; simp at h
  | some t1 =>
    cases h2 : boardGet b2 q with
    | none => rw [h1, h2] at h; simp at h
    | some t2 =>
      rw [h1, h2] at h
      simp only [Option.map_some'] at h
      exact Or.inr ⟨t1, t2, rfl, rfl, Option.some_injective _ h⟩

theorem occ_none_iff {b1 b2 : Board} {q : Position} (h : occ b1 q = occ b2 q) :
    boardGet b1 q = none ↔ boardGet b2 q = none := by
  rcases occ_cases h with ⟨hn1, hn2⟩ | ⟨t1, t2, hs1, hs2, -⟩
  · simp [hn1, hn2]
  · simp [hs1, hs2]

theorem capElem_congr (b1 b2 : Board) (hocc : ∀ q, occ b1 q = occ b2 q)
    (myColor : PieceColor) (cp : Position) :
    (if isValidPosition cp = true then
      match boardGet b1 cp with
      | some targetPiece => if targetPiece.color ≠ myColor then some cp else none
      | none => none
     else none) =
    (if isValidPosition cp = true then
      match boardGet b2 cp with
      | some targetPiece => if targetPiece.color ≠ myColor then some cp else none
      | none => none
     else none) := by
  split
  · rcases occ_cases (hocc cp) with ⟨hn1, hn2⟩ | ⟨t1, t2, hs1, hs2, hc⟩
    · simp only [hn1, hn2]
    · simp only [hs1, hs2, hc]
  · rfl

theorem stepElem_congr (b1 b2 : Board) (hocc : ∀ q, occ b1 q = occ b2 q)
    (myColor : PieceColor) (np : Position) :
    (if isValidPosition np = true then
      match boardGet b1 np with
      | none => some np
      | some targetPiece => if targetPiece.color ≠ myColor then some np else none
     else none) =
    (if isValidPosition np = true then
      match boardGet b2 np with
      | none => some np
      | some targetPiece => if targetPiece.color ≠ myColor then some np else none
     else none) := by
  split
  · rcases occ_cases (hocc np) with ⟨hn1, hn2⟩ | ⟨t1, t2, hs1, hs2, hc⟩
    · simp only [hn1, hn2]
    · simp only [hs1, hs2, hc]
  · rfl

theorem getPawnMoves_congr (b1 b2 : Board) (pos : Position)
    (hocc : ∀ q, occ b1 q = occ b2 q)
    (hpos : boardGet b1 pos = boardGet b2 pos) :
    getPawnMoves b1 pos = getPawnMoves b2 pos := by
  unfold getPawnMoves
  rw [← hpos]
  cases boardGet b1 pos with
  | none => rfl
  | some piece =>
    dsimp only
    have hfwd : ∀ fp : Position,
        (isValidPosition fp = true ∧ boardGet b1 fp = none)
          ↔ (isValidPosition fp = true ∧ boardGet b2 fp = none) :=
      fun fp => and_congr_right (fun _ => occ_none_iff (hocc fp))
    refine congrArg₂ (· ++ ·) ?_ ?_
    · refine if_congr (hfwd _) (congrArg _ (if_congr Iff.rfl (if_congr (hfwd _) rfl rfl) rfl)) rfl
    · refine congrArg (fun f => List.filterMap f [-1, 1]) (funext fun colOffset => ?_)
      exact capElem_congr b1 b2 hocc piece.color _

theorem slideDir_congr (b1 b2 : Board) (selfColor : PieceColor) (pos : Position)
    (rowDir colDir : Int) (hocc : ∀ q, occ b1 q = occ b2 q) :
    ∀ (fuel : Nat) (i : Int),
      slideDir b1 selfColor pos rowDir colDir fuel i
        = slideDir b2 selfColor pos rowDir colDir fuel i := by
  intro fuel
  induction fuel with
  | zero => intro i; rfl
  | succ n ih =>
    intro i
    simp only [slideDir]
    split
    · rcases occ_cases (hocc ⟨pos.row + i * rowDir, pos.col + i * colDir⟩) with
        ⟨hn1, hn2⟩ | ⟨t1, t2, hs1, hs2, hc⟩
      · simp only [hn1, hn2, ih]
      · simp only [hs1, hs2, hc]
    · rfl

theorem getRookMoves_congr (b1 b2 : Board) (pos : Position)
    (hocc : ∀ q, occ b1 q = occ b2 q)
    (hpos : boardGet b1 pos = boardGet b2 pos) :
    getRookMoves b1 pos = getRookMoves b2 pos := by
  unfold getRookMoves
  rw [← hpos]
  cases boardGet b1 pos with
  | none => rfl
  | some piece =>
    dsimp only
    refine congrArg _ (funext fun d => ?_)
    exact slideDir_congr b1 b2 piece.color pos d.1 d.2 hocc 7 1

theorem getBishopMoves_congr (b1 b2 : Board) (pos : Position)
    (hocc : ∀ q, occ b1 q = occ b2 q)
    (hpos : boardGet b1 pos = boardGet b2 pos) :
    getBishopMoves b1 pos = getBishopMoves b2 pos := by
  unfold getBishopMoves
  rw [← hpos]
  cases boardGet b1 pos with
  | none => rfl
  | some piece =>
    dsimp only
    refine congrArg _ (funext fun d => ?_)
    exact slideDir_congr b1 b2 piece.color pos d.1 d.2 hocc 7 1

theorem getQueenMoves_congr (b1 b2 : Board) (pos : Position)
    (hocc : ∀ q, occ b1 q = occ b2 q)
    (hpos : boardGet b1 pos = boardGet b2 pos) :
    getQueenMoves b1 pos = getQueenMoves b2 pos := by
  unfold getQueenMoves
  rw [getRookMoves_congr b1 b2 pos hocc hpos, getBishopMoves_congr b1 b2 pos hocc hpos]

theorem getKnightMoves_congr (b1 b2 : Board) (pos : Position)
    (hocc : ∀ q, occ b1 q = occ b2 q)
    (hpos : boardGet b1 pos = boardGet b2 pos) :
    getKnightMoves b1 pos = getKnightMoves b2 pos := by
  unfold getKnightMoves
  rw [← hpos]
  cases boardGet b1 pos with
  | none => rfl
  | some piece =>
    dsimp only
    refine congrArg (fun f => List.filterMap f _) (funext fun off => ?_)
    exact stepElem_congr b1 b2 hocc piece.color _

theorem getKingMoves_congr (b1 b2 : Board) (pos : Position)
    (hocc : ∀ q, occ b1 q = occ b2 q)
    (hpos : boardGet b1 pos = boardGet b2 pos) :
    getKingMoves b1 pos = getKingMoves b2 pos := by
  unfold getKingMoves
  rw [← hpos]
  cases boardGet b1 pos with
  | none => rfl
  | some piece =>
    dsimp only
    refine congrArg (fun f => List.filterMap f _) (funext fun off => ?_)
    exact stepElem_congr b1 b2 hocc piece.color _

theorem getLegalMovesIgnoringCheck_congr (b1 b2 : Board) (pos : Position)
    (hocc : ∀ q, occ b1 q = occ b2 q)
    (hpos : boardGet b1 pos = boardGet b2 pos) :
    getLegalMovesIgnoringCheck b1 pos = getLegalMovesIgnoringCheck b2 pos := by
  unfold getLegalMovesIgnoringCheck
  rw [← hpos]
  cases boardGet b1 pos with
  | none => rfl
  | some piece =>
    dsimp only
    cases piece.type
    · exact getKingMoves_congr b1 b2 pos hocc hpos
    · exact getQueenMoves_congr b1 b2 pos hocc hpos
    · exact getRookMoves_congr b1 b2 pos hocc hpos
    · exact getBishopMoves_congr b1 b2 pos hocc hpos
    · exact getKnightMoves_congr b1 b2 pos hocc hpos
    · exact getPawnMoves_congr b1 b2 pos hocc hpos

theorem posEq (a b : Position) (h1 : a.row = b.row) (h2 : a.col = b.col) : a = b := by
  cases a; cases b; simp_all

theorem find?_congr {α : Type} (p q : α → Bool) (l : List α) (h : ∀ x ∈ l, p x = q x) :
    l.find? p = l.find? q := by
  induction l with
  | nil => rfl
  | cons x xs ih =>
    simp only [List.find?]
    rw [h x (List.mem_cons_self x xs)]
    cases q x with
    | true => rfl
    | false => exact ih (fun y hy => h y (List.mem_cons_of_mem _ hy))

theorem any_congr {α : Type} (p q : α → Bool) (l : List α) (h : ∀ x ∈ l, p x = q x) :
    l.any p = l.any q := by
  induction l with
  | nil => rfl
  | cons x xs ih =>
    simp only [List.any_cons]
    rw [h x (List.mem_cons_self x xs), ih (fun y hy => h y (List.mem_cons_of_mem _ hy))]

/-- Replacing a piece of the scanned color by another piece of the same color
and the same king-ness (a pawn overwritten by the promotion queen, or a piece
differing only in `hasMoved`) cannot change whether that color's king is in
check: the king search sees the same king squares, and the enemy generators
read the mover's square only through its occupancy and color. -/
theorem isKingInCheck_set_own (c : PieceColor) (b1 : Board) (t : Position) (p1 p2 : Piece)
    (hWF : BoardWF b1)
    (hb1 : boardGet b1 t = some p1)
    (hcol : p2.color = p1.color)
    (hc : p1.color = c)
    (hking : (p2.type = PieceType.king) ↔ (p1.type = PieceType.king)) :
    isKingInCheck c (boardSet b1 t (some p2)) = isKingInCheck c b1 := by
  have hvalid : isValidPosition t = true := boardGet_some_valid b1 t p1 hWF hb1
  have hget2 : boardGet (boardSet b1 t (some p2)) t = some p2 :=
    boardGet_boardSet_same b1 t (some p2) hWF hvalid
  have hother : ∀ q, ¬(t.row = q.row ∧ t.col = q.col) →
      boardGet (boardSet b1 t (some p2)) q = boardGet b1 q :=
    fun q hq => boardGet_boardSet_ne b1 t (some p2) q hq
  have hocc : ∀ q, occ (boardSet b1 t (some p2)) q = occ b1 q := by
    intro q
    by_cases hq : t.row = q.row ∧ t.col = q.col
    · have hqt : q = t := posEq q t hq.1.symm hq.2.symm
      rw [hqt]
      simp [occ, hget2, hb1, hcol]
    · rw [occ, occ, hother q hq]
  have hfind : findKing c (boardSet b1 t (some p2)) = findKing c b1 := by
    unfold findKing
    apply find?_congr
    intro posq hmem
    by_cases hq : t.row = posq.row ∧ t.col = posq.col
    · have hqt : posq = t := posEq posq t hq.1.symm hq.2.symm
      rw [hqt, hget2, hb1]
      dsimp only
      rw [hcol, decide_eq_decide.mpr hking]
    · rw [hother posq hq]
  unfold isKingInCheck
  rw [hfind]
  cases hk : findKing c b1 with
  | none => rfl
  | some kp =>
    apply any_congr
    intro posq hmem
    by_cases hq : t.row = posq.row ∧ t.col = posq.col
    · have hqt : posq = t := posEq posq t hq.1.symm hq.2.symm
      rw [hqt, hget2, hb1]
      dsimp only
      have h2 : ¬(p2.color ≠ c) := by rw [hcol, hc]; simp
      have h1 : ¬(p1.color ≠ c) := by rw [hc]; simp
      simp [h1, h2]
    · rw [hother posq hq,
        getLegalMovesIgnoringCheck_congr (boardSet b1 t (some p2)) b1 posq hocc
          (hother posq hq)]

theorem capElem_some (b : Board) (myColor : PieceColor) (cp m : Position)
    (h : (if isValidPosition cp = true then
      match boardGet b cp with
      | some targetPiece => if targetPiece.color ≠ myColor then some cp else none
      | none => none
     else none) = some m) : m = cp ∧ isValidPosition cp = true := by
  split at h
  · next hv =>
    cases hbg : boardGet b cp with
    | none => simp only [hbg] at h; cases h
    | some t =>
      simp only [hbg] at h
      split at h
      · exact ⟨(Option.some_injective _ h).symm, hv⟩
      · cases h
  · cases h

theorem stepElem_some (b : Board) (myColor : PieceColor) (np m : Position)
    (h : (if isValidPosition np = true then
      match boardGet b np with
      | none => some np
      | some targetPiece => if targetPiece.color ≠ myColor then some np else none
     else none) = some m) : m = np ∧ isValidPosition np = true := by
  split at h
  · next hv =>
    cases hbg : boardGet b np with
    | none => simp only [hbg] at h; exact ⟨(Option.some_injective _ h).symm, hv⟩
    | some t =>
      simp only [hbg] at h
      split at h
      · exact ⟨(Option.some_injective _ h).symm, hv⟩
      · cases h
  · cases h

theorem slideDir_mem (b : Board) (sc : PieceColor) (pos : Position) (dr dc : Int) :
    ∀ (fuel : Nat) (i : Int), 1 ≤ i →
      ∀ m ∈ slideDir b sc pos dr dc fuel i,
        isValidPosition m = true
        ∧ ∃ j : Int, 1 ≤ j ∧ m.row = pos.row + j * dr ∧ m.col = pos.col + j * dc := by
  intro fuel
  induction fuel with
  | zero => intro i hi m hm; cases hm
  | succ n ih =>
    intro i hi m hm
    simp only [slideDir] at hm
    split at hm
    · next hv =>
      cases hbg : boardGet b ⟨pos.row + i * dr, pos.col + i * dc⟩ with
      | none =>
        simp only [hbg] at hm
        rcases List.mem_cons.mp hm with rfl | hm2
        · exact ⟨hv, i, hi, rfl, rfl⟩
        · exact ih (i + 1) (by omega) m hm2
      | some t =>
        simp only [hbg] at hm
        split at hm
        · rcases List.mem_singleton.mp hm with rfl
          exact ⟨hv, i, hi, rfl, rfl⟩
        · cases hm
    · cases hm

theorem getRookMoves_mem (b : Board) (pos : Position) :
    ∀ m ∈ getRookMoves b pos,
      isValidPosition m = true ∧ ¬(pos.row = m.row ∧ pos.col = m.col) := by
  intro m hm
  unfold getRookMoves at hm
  cases hbg : boardGet b pos with
  | none => simp only [hbg] at hm; cases hm
  | some piece =>
    simp only [hbg, List.mem_flatMap] at hm
    obtain ⟨d, hd, hmem⟩ := hm
    obtain ⟨hvalid, j, hj, hr, hc⟩ :=
      slideDir_mem b piece.color pos d.1 d.2 7 1 (by omega) m hmem
    refine ⟨hvalid, ?_⟩
    rintro ⟨h1, h2⟩
    fin_cases hd <;> simp at hr hc <;> omega

theorem getBishopMoves_mem (b : Board) (pos : Position) :
    ∀ m ∈ getBishopMoves b pos,
      isValidPosition m = true ∧ ¬(pos.row = m.row ∧ pos.col = m.col) := by
  intro m hm
  unfold getBishopMoves at hm
  cases hbg : boardGet b pos with
  | none => simp only [hbg] at hm; cases hm
  | some piece =>
    simp only [hbg, List.mem_flatMap] at hm
    obtain ⟨d, hd, hmem⟩ := hm
    obtain ⟨hvalid, j, hj, hr, hc⟩ :=
      slideDir_mem b piece.color pos d.1 d.2 7 1 (by omega) m hmem
    refine ⟨hvalid, ?_⟩
    rintro ⟨h1, h2⟩
    fin_cases hd <;> simp at hr hc <;> omega

theorem getQueenMoves_mem (b : Board) (pos : Position) :
    ∀ m ∈ getQueenMoves b pos,
      isValidPosition m = true ∧ ¬(pos.row = m.row ∧ pos.col = m.col) := by
  intro m hm
  unfold getQueenMoves at hm
  rcases List.mem_append.mp hm with h | h
  · exact getRookMoves_mem b pos m h
  · exact getBishopMoves_mem b pos m h

theorem getKnightMoves_mem (b : Board) (pos : Position) :
    ∀ m ∈ getKnightMoves b pos,
      isValidPosition m = true ∧ ¬(pos.row = m.row ∧ pos.col = m.col) := by
  intro m hm
  unfold getKnightMoves at hm
  cases hbg : boardGet b pos with
  | none => simp only [hbg] at hm; cases hm
  | some piece =>
    simp only [hbg, List.mem_filterMap] at hm
    obtain ⟨off, hoff, hsome⟩ := hm
    obtain ⟨rfl, hv⟩ := stepElem_some b piece.color _ m hsome
    refine ⟨hv, ?_⟩
    rintro ⟨h1, h2⟩
    fin_cases hoff <;> simp at h1 h2 <;> omega

theorem getKingMoves_mem (b : Board) (pos : Position) :
    ∀ m ∈ getKingMoves b pos,
      isValidPosition m = true ∧ ¬(pos.row = m.row ∧ pos.col = m.col) := by
  intro m hm
  unfold getKingMoves at hm
  cases hbg : boardGet b pos with
  | none => simp only [hbg] at hm; cases hm
  | some piece =>
    simp only [hbg, List.mem_filterMap] at hm
    obtain ⟨off, hoff, hsome⟩ := hm
    obtain ⟨rfl, hv⟩ := stepElem_some b piece.color _ m hsome
    refine ⟨hv, ?_⟩
    rintro ⟨h1, h2⟩
    fin_cases hoff <;> simp at h1 h2 <;> omega

theorem pawnForward_mem (b : Board) (pos : Position) (d sr : Int) (hd : d = -1 ∨ d = 1)
    (m : Position)
    (hm : m ∈ (if isValidPosition ⟨pos.row + d, pos.col⟩ = true
          ∧ boardGet b ⟨pos.row + d, pos.col⟩ = none then
        (⟨pos.row + d, pos.col⟩ : Position) ::
          (if pos.row = sr then
            (if isValidPosition ⟨pos.row + 2 * d, pos.col⟩ = true
                ∧ boardGet b ⟨pos.row + 2 * d, pos.col⟩ = none then
              [(⟨pos.row + 2 * d, pos.col⟩ : Position)]
            else [])
          else [])
      else [])) :
    isValidPosition m = true ∧ ¬(pos.row = m.row ∧ pos.col = m.col) := by
  rcases hd with rfl | rfl <;>
  · split at hm
    · next hA =>
      rcases List.mem_cons.mp hm with rfl | hm2
      · exact ⟨hA.1, by rintro ⟨h1, h2⟩; dsimp only at h1 h2; omega⟩
      · split at hm2
        · split at hm2
          · next hB =>
            rcases List.mem_singleton.mp hm2 with rfl
            exact ⟨hB.1, by rintro ⟨h1, h2⟩; dsimp only at h1 h2; omega⟩
          · cases hm2
        · cases hm2
    · cases hm

theorem getPawnMoves_mem (b : Board) (pos : Position) :
    ∀ m ∈ getPawnMoves b pos,
      isValidPosition m = true ∧ ¬(pos.row = m.row ∧ pos.col = m.col) := by
  intro m hm
  unfold getPawnMoves at hm
  cases hbg : boardGet b pos with
  | none => simp only [hbg] at hm; cases hm
  | some piece =>
    simp only [hbg] at hm
    rw [List.mem_append] at hm
    rcases hm with hf | hcap
    · exact pawnForward_mem b pos _ _
        (by by_cases hw : piece.color = PieceColor.white <;> simp [hw]) m hf
    · rw [List.mem_filterMap] at hcap
      obtain ⟨off, hoff, hsome⟩ := hcap
      obtain ⟨rfl, hv⟩ := capElem_some b piece.color _ m hsome
      refine ⟨hv, ?_⟩
      rintro ⟨h1, h2⟩
      dsimp only at h1 h2
      by_cases hw : piece.color = PieceColor.white
      · rw [if_pos hw] at h1; omega
      · rw [if_neg hw] at h1; omega

/-- Core of the self-check soundness argument: if the simulated move (which
`wouldBeInCheck` plays without the `hasMoved` update and without promotion)
leaves the mover's king safe, then so does the board `makeMove` actually
produces, because the two boards differ only in the moved piece's `hasMoved`
flag and possibly its kind (pawn vs promotion queen, neither a king). -/
theorem selfcheck_core (gs : GameState) (pos toPos : Position) (p : Piece)
    (hWF : BoardWF gs.board) (hp : boardGet gs.board pos = some p)
    (hvt : isValidPosition toPos = true)
    (hnece : ¬(pos.row = toPos.row ∧ pos.col = toPos.col))
    (hwbc : wouldBeInCheck gs.board pos toPos p.color = false) :
    isKingInCheck p.color (makeMove gs pos toPos).2.board = false := by
  have hw2 : isKingInCheck p.color
      (boardSet (boardSet gs.board toPos (some p)) pos none) = false := by
    simp only [wouldBeInCheck, copyBoard_eq, hp] at hwbc
    exact hwbc
  have hgetSim : boardGet (boardSet (boardSet gs.board toPos (some p)) pos none) toPos
      = some p := by
    rw [boardGet_boardSet_ne _ _ _ _ hnece, boardGet_boardSet_same _ _ _ hWF hvt]
  have hWFsim : BoardWF (boardSet (boardSet gs.board toPos (some p)) pos none) :=
    boardWF_boardSet _ _ _ (boardWF_boardSet _ _ _ hWF)
  have hb := makeMove_board_some gs pos toPos p hp
  by_cases hpr : promoCond p toPos
  · rw [if_pos hpr] at hb
    have h1 : boardSet (boardSet (boardSet gs.board toPos (some { p with hasMoved := true }))
        pos none) toPos (some { p with type := PieceType.queen, hasMoved := true })
        = boardSet (boardSet gs.board toPos
            (some { p with type := PieceType.queen, hasMoved := true })) pos none := by
      rw [boardSet_comm _ pos toPos none _ hnece, boardSet_boardSet_same]
    have h2 : boardSet (boardSet (boardSet gs.board toPos (some p)) pos none) toPos
        (some { p with type := PieceType.queen, hasMoved := true })
        = boardSet (boardSet gs.board toPos
            (some { p with type := PieceType.queen, hasMoved := true })) pos none := by
      rw [boardSet_comm _ pos toPos none _ hnece, boardSet_boardSet_same]
    rw [hb, h1, ← h2]
    rw [isKingInCheck_set_own p.color _ toPos p
      { p with type := PieceType.queen, hasMoved := true } hWFsim hgetSim rfl rfl
      (by simp [hpr.1])]
    exact hw2
  · rw [if_neg hpr] at hb
    have h2 : boardSet (boardSet (boardSet gs.board toPos (some p)) pos none) toPos
        (some { p with hasMoved := true })
        = boardSet (boardSet gs.board toPos (some { p with hasMoved := true })) pos none := by
      rw [boardSet_comm _ pos toPos none _ hnece, boardSet_boardSet_same]
    rw [hb, ← h2]
    rw [isKingInCheck_set_own p.color _ toPos p { p with hasMoved := true } hWFsim hgetSim
      rfl rfl Iff.rfl]
    exact hw2

/-- C3: the self-check filter is sound — for every game state, every piece and
every destination `getLegalMoves` offers for it, actually committing the move
with `makeMove` leaves the mover's own king out of check. -/
theorem C3_selfcheck_filter_sound (gs : GameState) (pos toPos : Position) (p : Piece)
    (hWF : BoardWF gs.board)
    (hp : boardGet gs.board pos = some p)
    (ht : toPos ∈ getLegalMoves gs.board pos) :
    isKingInCheck p.color (makeMove gs pos toPos).2.board = false := by
  unfold getLegalMoves at ht
  simp only [hp] at ht
  cases hty : p.type with
  | king =>
    simp only [hty] at ht
    rw [List.mem_filter] at ht
    obtain ⟨hspec1, hspec2⟩ := getKingMoves_mem gs.board pos toPos ht.1
    refine selfcheck_core gs pos toPos p hWF hp hspec1 hspec2 ?_
    have hflt := ht.2; simp only [Bool.not_eq_true'] at hflt; exact hflt
  | queen =>
    simp only [hty] at ht
    rw [List.mem_filter] at ht
    obtain ⟨hspec1, hspec2⟩ := getQueenMoves_mem gs.board pos toPos ht.1
    refine selfcheck_core gs pos toPos p hWF hp hspec1 hspec2 ?_
    have hflt := ht.2; simp only [Bool.not_eq_true'] at hflt; exact hflt
  | rook =>
    simp only [hty] at ht
    rw [List.mem_filter] at ht
    obtain ⟨hspec1, hspec2⟩ := getRookMoves_mem gs.board pos toPos ht.1
    refine selfcheck_core gs pos toPos p hWF hp hspec1 hspec2 ?_
    have hflt := ht.2; simp only [Bool.not_eq_true'] at hflt; exact hflt
  | bishop =>
    simp only [hty] at ht
    rw [List.mem_filter] at ht
    obtain ⟨hspec1, hspec2⟩ := getBishopMoves_mem gs.board pos toPos ht.1
    refine selfcheck_core gs pos toPos p hWF hp hspec1 hspec2 ?_
    have hflt := ht.2; simp only [Bool.not_eq_true'] at hflt; exact hflt
  | knight =>
    simp only [hty] at ht
    rw [List.mem_filter] at ht
    obtain ⟨hspec1, hspec2⟩ := getKnightMoves_mem gs.board pos toPos ht.1
    refine selfcheck_core gs pos toPos p hWF hp hspec1 hspec2 ?_
    have hflt := ht.2; simp only [Bool.not_eq_true'] at hflt; exact hflt
  | pawn =>
    simp only [hty] at ht
    rw [List.mem_filter] at ht
    obtain ⟨hspec1, hspec2⟩ := getPawnMoves_mem gs.board pos toPos ht.1
    refine selfcheck_core gs pos toPos p hWF hp hspec1 hspec2 ?_
    have hflt := ht.2; simp only [Bool.not_eq_true'] at hflt; exact hflt

/-- C3 witness: the opening pawn move (6,4)→(4,4) is offered by
`getLegalMoves` and committing it leaves white's king out of check. -/
theorem C3_witness :
    isKingInCheck PieceColor.white (makeMove initializeGame ⟨6, 4⟩ ⟨4, 4⟩).2.board = false :=
  C3_selfcheck_filter_sound initializeGame ⟨6, 4⟩ ⟨4, 4⟩ ⟨.pawn, .white, false⟩
    (by decide) (by decide) (by decide)

theorem score_max_ne_posInf {a b : Score} (ha : a ≠ .posInf) (hb : b ≠ .posInf) :
    Score.max a b ≠ .posInf := by
  unfold Score.max; split <;> assumption

theorem score_min_ne_negInf {a b : Score} (ha : a ≠ .negInf) (hb : b ≠ .negInf) :
    Score.min a b ≠ .negInf := by
  unfold Score.min; split <;> assumption

theorem score_posInf_le_false {a : Score} (ha : a ≠ .posInf) : Score.le .posInf a = false := by
  cases a with
  | posInf => exact absurd rfl ha
  | negInf => rfl
  | val q => rfl

theorem score_le_negInf_false {a : Score} (ha : a ≠ .negInf) : Score.le a .negInf = false := by
  cases a with
  | negInf => exact absurd rfl ha
  | posInf => rfl
  | val q => rfl

/-- With `beta = Infinity` and finite recursive scores, the break condition
`beta <= alpha` of the maximizing loop never fires, so the pruned loop is the
plain loop. -/
theorem maxLoop_eq_plain (rec : Move → Score → Score → List Move → Score × List Move)
    (hval : ∀ m a b h, ∃ q, (rec m a b h).1 = Score.val q) :
    ∀ (ms : List Move) (alpha : Score), alpha ≠ Score.posInf →
      ∀ (acc : Score) (hist : List Move),
        maxLoop rec ms alpha Score.posInf acc hist
          = maxLoopPlain rec ms alpha Score.posInf acc hist := by
  intro ms
  induction ms with
  | nil => intro alpha ha acc hist; rfl
  | cons m rest ih =>
    intro alpha ha acc hist
    simp only [maxLoop, maxLoopPlain]
    obtain ⟨q, hq⟩ := hval m alpha Score.posInf hist
    have halpha2 : Score.max alpha (rec m alpha Score.posInf hist).1 ≠ Score.posInf :=
      score_max_ne_posInf ha (by rw [hq]; intro h; cases h)
    rw [if_neg (by rw [score_posInf_le_false halpha2]; intro h; cases h)]
    exact ih _ halpha2 _ _

/-- With `alpha = -Infinity` and finite recursive scores, the break condition
of the minimizing loop never fires. -/
theorem minLoop_eq_plain (rec : Move → Score → Score → List Move → Score × List Move)
    (hval : ∀ m a b h, ∃ q, (rec m a b h).1 = Score.val q) :
    ∀ (ms : List Move) (beta : Score), beta ≠ Score.negInf →
      ∀ (acc : Score) (hist : List Move),
        minLoop rec ms Score.negInf beta acc hist
          = minLoopPlain rec ms Score.negInf beta acc hist := by
  intro ms
  induction ms with
  | nil => intro beta hb acc hist; rfl
  | cons m rest ih =>
    intro beta hb acc hist
    simp only [minLoop, minLoopPlain]
    obtain ⟨q, hq⟩ := hval m Score.negInf beta hist
    have hbeta2 : Score.min beta (rec m Score.negInf beta hist).1 ≠ Score.negInf :=
      score_min_ne_negInf hb (by rw [hq]; intro h; cases h)
    rw [if_neg (by rw [score_le_negInf_false hbeta2]; intro h; cases h)]
    exact ih _ hbeta2 _ _

/-- At search depth 0 or 1 with the full window the pruned search is the plain
search: every recursive score is a finite static evaluation, so no break can
fire. -/
theorem minimax_le1_eq_plain (g : GameState) (d : Nat) (hd : d ≤ 1) :
    ∀ (mv : Move) (isMax : Bool) (hist : List Move),
      minimax g d mv isMax .negInf .posInf hist
        = minimaxPlain g d mv isMax .negInf .posInf hist := by
  interval_cases d
  · intro mv isMax hist; rfl
  · intro mv isMax hist
    simp only [minimax, minimaxPlain]
    split
    · rfl
    · split
      · exact maxLoop_eq_plain (fun m a b h => minimax g 0 m false a b h)
          (fun m a b h => ⟨evaluateMove h m, rfl⟩) _ _ (by intro h; cases h) _ _
      · exact minLoop_eq_plain (fun m a b h => minimax g 0 m true a b h)
          (fun m a b h => ⟨evaluateMove h m, rfl⟩) _ _ (by intro h; cases h) _ _

theorem hardLoop_eq_plain (g : GameState) (depth : Nat)
    (hmm : ∀ (mv : Move) (hist : List Move),
      minimax g (depth - 1) mv false .negInf .posInf hist
        = minimaxPlain g (depth - 1) mv false .negInf .posInf hist) :
    ∀ (ms : List Move) (best : Option Move) (bs : Score) (hist : List Move),
      hardLoop g depth ms best bs hist = hardLoopPlain g depth ms best bs hist := by
  intro ms
  induction ms with
  | nil => intro best bs hist; rfl
  | cons m rest ih =>
    intro best bs hist
    simp only [hardLoop, hardLoopPlain, hmm]
    split <;> exact ih _ _ _

/-- C8 amended: the pruned and the plain root search agree for every position,
history and depth parameter up to 2, where the full-window search can never
take a pruning break. -/
theorem C8_amended (g : GameState) (moves hist : List Move) (d : Nat) (hd : d ≤ 2) :
    getHardMove g moves d hist = getHardMovePlain g moves d hist := by
  rw [getHardMove, getHardMovePlain]
  apply hardLoop_eq_plain
  intro mv h2
  exact minimax_le1_eq_plain g (d - 1) (by omega) mv false h2

/-- A six-piece position on which the depth-4 pruned and plain root searches
disagree: black king (0,1) walled in by its own pawn (1,1), which is blocked
by the white pawn (2,1); white king (7,6) walled in symmetrically by the white
pawn (6,6), blocked by the black pawn (5,6).  Both kings have exactly two
legal moves and all four pawns are locked, so the whole search stays tiny. -/
def pruneBoard : Board :=
  boardSet (boardSet (boardSet (boardSet (boardSet (boardSet emptyBoard
    ⟨0, 1⟩ (some ⟨.king, .black, true⟩)) ⟨1, 1⟩ (some ⟨.pawn, .black, true⟩))
    ⟨2, 1⟩ (some ⟨.pawn, .white, true⟩)) ⟨7, 6⟩ (some ⟨.king, .white, true⟩))
    ⟨6, 6⟩ (some ⟨.pawn, .white, true⟩)) ⟨5, 6⟩ (some ⟨.pawn, .black, true⟩)

/-- The engine state holding `pruneBoard` with black to move and an empty
history. -/
def pruneGame : GameState :=
  { board := pruneBoard
    currentPlayer := .black
    isCheck := false
    isCheckmate := false
    isStalemate := false
    gameOver := false
    selectedSquare := none
    legalMoves := []
    moveHistory := []
    difficulty := .veryHard }

set_option maxRecDepth 4000000 in
set_option maxHeartbeats 8000000 in
/-- C8 counterexample: at depth 4 on `pruneGame` the alpha-beta search and the
plain search return different best moves — pruning skips hypothetical
`makeMove` pushes onto the shared move history, and the evaluator's
repetition penalty reads that history, so pruning is observable. -/
theorem C8_counterexample :
    (getHardMove pruneGame (getAllLegalMoves pruneBoard .black) 4 []).1
      ≠ (getHardMovePlain pruneGame (getAllLegalMoves pruneBoard .black) 4 []).1 :=
  of_decide_eq_true (by with_unfolding_all rfl)

/-- C8 amended witness: at depth 2 on the two-kings position the pruned and
plain searches agree exactly. -/
theorem C8_amended_witness :
    getHardMove kingsGame (getAllLegalMoves kingsBoard .black) 2 []
      = getHardMovePlain kingsGame (getAllLegalMoves kingsBoard .black) 2 [] :=
  C8_amended kingsGame (getAllLegalMoves kingsBoard .black) [] 2 (by decide)
